import Mathlib

/-!
Verification of the lj-backup core (src/lib/lj_backup.py) against its
natural-language specification.

The Python source is shallowly embedded: mutable objects become explicit
state records, file-system effects become explicit data (lists of created
directories / written files), the remote LiveJournal API becomes either an
abstract oracle function or a concrete model built from a finite item set,
and Python exceptions become `Except` / `Option` error values.
-/

/-! ## Path primitives (os.path as used by JournalStorage)

Paths are Lean `String`s; character-level operations mirror Python's
string-level checks (`startswith` is character-prefix, `os.path.join`
concatenates with a separator, `os.path.normpath` resolves `.` and `..`
segments).  `abspath` is modelled for absolute inputs only, which is the
only way `JournalStorage.ensure_dir` applies it (the argument is
`os.path.join(self.path, dir)` with `self.path` absolute). -/

/-- Models Python `s.startswith(pre)`: `pre` is a character prefix of `s`. -/
def pyStartswith (s pre : String) : Bool := pre.data.isPrefixOf s.data

/-- True when the last character of `s` is a slash. -/
def endsWithSlash (s : String) : Bool := s.data.getLast? = some '/'

/-- Models `os.path.join(a, b)` for one component: an absolute `b` replaces
`a`, otherwise the two are joined with a single separator. -/
def pathJoin (a b : String) : String :=
  if pyStartswith b "/" then b
  else if endsWithSlash a then a ++ b
  else a ++ "/" ++ b

/-- Splits a character list on `'/'` boundaries. -/
def splitSlash : List Char → List (List Char)
  | [] => [[]]
  | c :: rest =>
    let r := splitSlash rest
    if c = '/' then [] :: r
    else
      match r with
      | [] => [[c]]
      | seg :: segs => (c :: seg) :: segs

/-- One normalisation step of `os.path.normpath` over the segments of an
absolute path: empty and `.` segments vanish, `..` pops the previous
segment (staying at the root when there is none). -/
def normStep (acc : List (List Char)) (seg : List Char) : List (List Char) :=
  if seg = [] ∨ seg = ['.'] then acc
  else if seg = ['.', '.'] then acc.dropLast
  else acc ++ [seg]

/-- Reassembles normalised segments into an absolute path string. -/
def joinSegs (segs : List (List Char)) : String :=
  "/" ++ String.intercalate "/" (segs.map String.mk)

/-- Models `os.path.abspath` on an absolute input: `normpath` of the path
(the current working directory plays no role for absolute paths). -/
def abspath (p : String) : String :=
  joinSegs ((splitSlash p.data).foldl normStep [])

/-- The fully resolved target of a directory / file request `dir` against
the store root `root`: relative requests are joined onto the root, and the
result is normalised.  This is the "resolves to" notion of the spec. -/
def resolvedTarget (root dir : String) : String := abspath (pathJoin root dir)

/-- `p` lies inside the root directory `root` (the root itself or a path
below it), for a normalised absolute `root` without a trailing slash. -/
def isWithin (root p : String) : Bool :=
  (p == root) || pyStartswith p (root ++ "/")

/-! ## Python value shapes and `int()` conversion (for parent-id fields) -/

/-- The shapes a decoded protocol field can take: an integer, a string, or
a non-numeric non-string value (e.g. Python `None`), which `int()` rejects
with `TypeError` rather than `ValueError`. -/
inductive PyVal where
  | vint (n : Int)
  | vstr (s : String)
  | vnone
deriving Repr, DecidableEq

/-- The two Python exception kinds `int()` can raise. -/
inductive PyErr where
  | valueError
  | typeError
deriving Repr, DecidableEq

/-- Numeric value of a digit list, most significant first. -/
def digitsToNat (cs : List Char) : Nat :=
  cs.foldl (fun acc c => acc * 10 + (c.toNat - '0'.toNat)) 0

/-- Models Python `int(s)` on a string: surrounding spaces are stripped, an
optional sign is followed by at least one digit; otherwise `None` (which
`pyInt` maps to `ValueError`). -/
def pyStrToInt (s : String) : Option Int :=
  let cs := ((s.data.dropWhile (· = ' ')).reverse.dropWhile (· = ' ')).reverse
  match cs with
  | '-' :: rest =>
    if rest ≠ [] ∧ rest.all Char.isDigit then some (-(digitsToNat rest : Int)) else none
  | '+' :: rest =>
    if rest ≠ [] ∧ rest.all Char.isDigit then some (digitsToNat rest : Int) else none
  | rest =>
    if rest ≠ [] ∧ rest.all Char.isDigit then some (digitsToNat rest : Int) else none

/-- Models Python `int(v)`: integers pass through, strings are parsed
(failure is `ValueError`), and non-numeric non-string values raise
`TypeError`. -/
def pyInt : PyVal → Except PyErr Int
  | .vint n => .ok n
  | .vstr s =>
    match pyStrToInt s with
    | some n => .ok n
    | none => .error .valueError
  | .vnone => .error .typeError

/-! ## Records -/

/-- A fetched event record, as returned by `getevents_one` (the entry id
and an opaque payload standing for the remaining fields). -/
structure EventRec where
  itemid : Nat
  payload : String
deriving Repr, DecidableEq

/-- An entry as held by the store: the payload plus the `sync_time` marker
that `add_entry` attaches (`none` models a stored record lacking the
`sync_time` key). -/
structure StoredEntry where
  payload : String
  sync_time : Option String
deriving Repr, DecidableEq

/-- A raw comment body record as returned by `fetch_comment_bodies`:
`jitemid` names the owning entry, `parentid` is the (possibly malformed)
parent reference, `posterid` the numeric poster id (`0` models a falsy /
anonymous poster), and `body` the text. -/
structure CommentBody where
  jitemid : Nat
  parentid : PyVal
  posterid : Nat
  body : String
deriving Repr, DecidableEq

/-- A comment as persisted by `JournalStorage.add_comment`: the body plus
the extra fields the backup loop attaches. -/
structure StoredComment where
  entry_id : Nat
  comment_id : Nat
  comment_parent_id : Int
  username : String
  payload : CommentBody
deriving Repr, DecidableEq

/-! ## JournalStorage

The in-memory index (`entries`, `comments`, `usernames`) and the on-disk
JSON files (`diskEntries`, `diskComments`: one file per record id, an
overwrite replacing the previous content) are modelled separately so that
claims about "observable stored state" can speak about both. -/

@[ext]
structure JournalStorage where
  entries : Nat → Option StoredEntry
  diskEntries : Nat → Option StoredEntry
  comments : Nat → List StoredComment
  diskComments : Nat → Option StoredComment
  usernames : List (Nat × String)
  modified : Bool

/-- The storage state right after construction over an empty directory. -/
def JournalStorage.empty : JournalStorage :=
  { entries := fun _ => none
    diskEntries := fun _ => none
    comments := fun _ => []
    diskComments := fun _ => none
    usernames := []
    modified := false }

/-- Models `JournalStorage.ensure_dir` together with its file-system
effect.  `fs` is the set of directories that exist; the result is either
the `ValueError` (path violation, no mutation) or the updated directory
set together with the path handed to `os.makedirs`. -/
def JournalStorage.ensure_dir (root : String) (fs : List String) (dir : String) :
    Except String (List String × String) :=
  if pyStartswith dir "/" && !(pyStartswith dir root) then
    .error ("Path should be either local or inside " ++ root)
  else
    let d := if !(pyStartswith dir "/") then abspath (pathJoin root dir) else dir
    if fs.contains d then .ok (fs, d) else .ok (d :: fs, d)

/-- Models `JournalStorage.save_file`: the target path is joined and the
file written unconditionally (the atomic write is modelled as the new
(path, content) pair shadowing any earlier write to the same path). -/
def JournalStorage.save_file (files : List (String × String)) (path filename data : String) :
    List (String × String) :=
  (pathJoin path filename, data) :: files

/-- Models `JournalStorage.add_entry` (with the `sync_time` extra the
backup loop always passes): the record is indexed under its own `itemid`
in memory and written to its per-id file. -/
def JournalStorage.add_entry (s : JournalStorage) (ev : EventRec) (sync_time : String) :
    JournalStorage :=
  let e : StoredEntry := { payload := ev.payload, sync_time := some sync_time }
  { s with
    entries := fun i => if i = ev.itemid then some e else s.entries i
    diskEntries := fun i => if i = ev.itemid then some e else s.diskEntries i
    modified := true }

/-- Models `JournalStorage.add_comment`: the record is appended to the
in-memory per-entry list and written to its per-comment-id file. -/
def JournalStorage.add_comment (s : JournalStorage) (c : StoredComment) : JournalStorage :=
  { s with
    comments := fun eid => if eid = c.entry_id then s.comments eid ++ [c] else s.comments eid
    diskComments := fun i => if i = c.comment_id then some c else s.diskComments i
    modified := true }

/-- Models `JournalStorage.add_usernames`: the new map is merged over the
old one (first match wins on lookup, so prepending models the override). -/
def JournalStorage.add_usernames (s : JournalStorage) (usermap : List (Nat × String)) :
    JournalStorage :=
  { s with usernames := usermap ++ s.usernames, modified := true }

/-! ## Entry sync (FeedBackup.backup, entry half) -/

/-- One iteration of the entry loop of `FeedBackup.backup` for a
discovered `(entry_id, sync_time)` pair: skip when the store already holds
the id with an equal `sync_time`, otherwise fetch the body through the
oracle `fetch` and `add_entry` it; the second component counts the body
fetches (`downloaded`). -/
def FeedBackup.entrySyncStep (fetch : Nat → EventRec) (acc : JournalStorage × Nat)
    (p : Nat × String) : JournalStorage × Nat :=
  match acc.1.entries p.1 with
  | some e =>
    if e.sync_time = some p.2 then acc
    else (acc.1.add_entry (fetch p.1) p.2, acc.2 + 1)
  | none => (acc.1.add_entry (fetch p.1) p.2, acc.2 + 1)

/-- The entry half of `FeedBackup.backup`: fold the step over the listed
`(entry_id, sync_time)` pairs, starting with zero downloads. -/
def FeedBackup.entrySync (fetch : Nat → EventRec) (s : JournalStorage)
    (pairs : List (Nat × String)) : JournalStorage × Nat :=
  pairs.foldl (FeedBackup.entrySyncStep fetch) (s, 0)

/-- The store holds entry `i` with a stored `sync_time` equal to `t`
(the condition under which the entry loop skips the pair). -/
def entryMatches (s : JournalStorage) (i : Nat) (t : String) : Prop :=
  ∃ e, s.entries i = some e ∧ e.sync_time = some t

/-! ## Entry listing (FeedBackup.list_entries) -/

/-- One item of a `syncitems` response. The wire encoding `"L-123"` is
modelled as the kind tag (`"L"` for journal entries) plus the numeric id. -/
structure SyncItem where
  kind : String
  item_id : Nat
  time : Nat
deriving Repr, DecidableEq

/-- A `syncitems` response page. -/
structure SyncResp where
  syncitems : List SyncItem
  count : Nat
  total : Nat
deriving Repr, DecidableEq

/-- The `e['item'].startswith('L-')` filter of `list_entries`. -/
def isJournalItem (e : SyncItem) : Bool := e.kind == "L"

/-- The journal `(entry_id, time)` pairs kept from one page. -/
def journalPairs (resp : SyncResp) : List (Nat × Nat) :=
  (resp.syncitems.filter isJournalItem).map (fun e => (e.item_id, e.time))

/-- The loop state of `list_entries`: accumulated journal pairs, the
cursor, and the `count` / `total` of the last response (`total = none`
models the initial Python `None`). -/
structure ListState where
  items : List (Nat × Nat)
  last_sync : Option Nat
  count : Nat
  total : Option Nat
deriving Repr, DecidableEq

/-- The state on entering the `while` loop of `list_entries`. -/
def initListState : ListState := { items := [], last_sync := none, count := 0, total := none }

/-- One iteration body of the `list_entries` loop on the response of the
current page: journal pairs are appended, and the cursor advances to the
time of the last appended journal pair only when the page contained at
least one journal item (`last_sync = items[-1][1]` under `if
journalitems`). -/
def FeedBackup.listStep (st : ListState) (resp : SyncResp) : ListState :=
  let js := journalPairs resp
  { items := st.items ++ js
    last_sync :=
      match js.getLast? with
      | some p => some p.2
      | none => st.last_sync
    count := resp.count
    total := some resp.total }

/-- `FeedBackup.list_entries` with explicit fuel: the `while count !=
total` loop over the paginated oracle `srv`; `none` means the fuel ran out
before the loop condition turned false (the loop has not terminated within
`fuel` iterations). -/
def FeedBackup.list_entries (srv : Option Nat → SyncResp) :
    Nat → ListState → Option (List (Nat × Nat))
  | 0, _ => none
  | fuel + 1, st =>
    if st.total = some st.count then some st.items
    else FeedBackup.list_entries srv fuel (FeedBackup.listStep st (srv st.last_sync))

/-- Modelled from the spec: the remote `syncitems` capability is not part
of src/ (spec treats it as an opaque paginated change listing). A finite
remote item set is a list `L` ordered by time; a request with cursor `c`
returns the items strictly after `c`. -/
def remainingItems (L : List SyncItem) (c : Option Nat) : List SyncItem :=
  match c with
  | none => L
  | some t => L.filter (fun e => t < e.time)

/-- Modelled from the spec: one `syncitems` page over the finite remote
item set `L` with page size `K`: the first `K` remaining items, `count`
the number returned in this response, `total` the number remaining. -/
def syncitemsModel (L : List SyncItem) (K : Nat) (c : Option Nat) : SyncResp :=
  let rem := remainingItems L c
  { syncitems := rem.take K, count := (rem.take K).length, total := rem.length }

/-! ## Comment metadata convergence (FeedBackup.get_meta_since) -/

/-- A `fetch_comment_meta` response page. -/
structure MetaResp where
  maxid : Nat
  comments : List (Nat × String)
  usermaps : List (Nat × String)
deriving Repr, DecidableEq

/-- The accumulator of `get_meta_since`: the watermark, the last reported
`maxid`, and the merged comment metadata / usermaps (first match wins on
lookup, so newer pages are prepended). -/
structure MetaAcc where
  highest : Nat
  maxid : Nat
  comments : List (Nat × String)
  usermaps : List (Nat × String)
deriving Repr, DecidableEq

/-- The accumulator on entering the loop: `maxid` is artificially
`highest + 1` so the `while highest < maxid` guard passes once. -/
def initMetaAcc (highest : Nat) : MetaAcc :=
  { highest := highest, maxid := highest + 1, comments := [], usermaps := [] }

/-- One iteration body of the `get_meta_since` loop: fetch a page at the
current watermark, adopt its `maxid`, raise `highest` to the largest
comment id seen, and merge the page's metadata and usermaps. -/
def FeedBackup.metaStep (srv : Nat → MetaResp) (a : MetaAcc) : MetaAcc :=
  let m := srv a.highest
  { highest := m.comments.foldl (fun h p => max p.1 h) a.highest
    maxid := m.maxid
    comments := m.comments ++ a.comments
    usermaps := m.usermaps ++ a.usermaps }

/-- `FeedBackup.get_meta_since`'s `while highest < maxid` loop with
explicit fuel; `none` means the loop has not terminated within `fuel`
iterations. -/
def FeedBackup.get_meta_since (srv : Nat → MetaResp) : Nat → MetaAcc → Option MetaAcc
  | 0, _ => none
  | fuel + 1, a =>
    if a.highest < a.maxid then FeedBackup.get_meta_since srv fuel (FeedBackup.metaStep srv a)
    else some a

/-- Largest comment id of a finite remote comment set (0 when empty). -/
def maxCommentId (M : List (Nat × String)) : Nat :=
  M.foldl (fun m p => max m p.1) 0

/-- Modelled from the spec: the remote `fetch_comment_meta` capability over
a finite comment set `M` with page size `K`: the authoritative `maxid` is
the largest id of `M`, and a page anchored at `highest` returns the first
`K` comments with larger ids. -/
def fetchMetaModel (M : List (Nat × String)) (K : Nat) (umaps : List (Nat × String))
    (highest : Nat) : MetaResp :=
  { maxid := maxCommentId M
    comments := (M.filter (fun p => highest < p.1)).take K
    usermaps := umaps }

/-! ## Comment persist step (FeedBackup.backup, comment half) -/

/-- Models `FeedBackup._comment_parent_id`: `int(comment['parentid'])`
with only `ValueError` caught (defaulting to 0); any other exception
(e.g. `TypeError`) escapes. -/
def FeedBackup.comment_parent_id (v : PyVal) : Except PyErr Int :=
  match pyInt v with
  | .ok n => .ok n
  | .error .valueError => .ok 0
  | .error e => .error e

/-- The sort keys Python's `sorted(bodies.items(), key=...)` computes up
front: each body paired with its derived parent id; a `TypeError` raised
by a key aborts the sort. -/
def keyedBodies : List (Nat × CommentBody) → Except PyErr (List ((Nat × CommentBody) × Int))
  | [] => .ok []
  | kv :: rest =>
    match FeedBackup.comment_parent_id kv.2.parentid with
    | .error e => .error e
    | .ok pid =>
      match keyedBodies rest with
      | .error e => .error e
      | .ok ks => .ok ((kv, pid) :: ks)

/-- Comparison by derived parent id, the sort order of the persist loop. -/
def bodyKeyLE (a b : (Nat × CommentBody) × Int) : Prop := a.2 ≤ b.2

instance : DecidableRel bodyKeyLE := fun a b => inferInstanceAs (Decidable (a.2 ≤ b.2))

instance : IsTotal ((Nat × CommentBody) × Int) bodyKeyLE :=
  ⟨fun a b => le_total a.2 b.2⟩

instance : IsTrans ((Nat × CommentBody) × Int) bodyKeyLE :=
  ⟨fun _ _ _ h h' => le_trans h h'⟩

/-- Models the username resolution of the persist loop:
`usernames[posterid] if posterid else ''` — total for a falsy poster id,
a failed dictionary lookup (`none`) models the `KeyError`. -/
def resolveUsername (users : List (Nat × String)) (p : Nat) : Option String :=
  if p = 0 then some "" else users.lookup p

/-- The record `add_comment` receives for one body: the body plus the
extras `entry_id=jitemid`, `comment_id=key`, `comment_parent_id`, and the
resolved username. -/
def mkStoredComment (kv : (Nat × CommentBody) × Int) (u : String) : StoredComment :=
  { entry_id := kv.1.2.jitemid
    comment_id := kv.1.1
    comment_parent_id := kv.2
    username := u
    payload := kv.1.2 }

/-- The write loop over the sorted bodies: each body's username is
resolved and the record is persisted; a failed lookup raises the
`KeyError` immediately, keeping the records already written and dropping
the failing one and all later ones. -/
def persistLoop (users : List (Nat × String)) :
    List ((Nat × CommentBody) × Int) → List StoredComment → List StoredComment × Option String
  | [], acc => (acc, none)
  | kv :: rest, acc =>
    match resolveUsername users kv.1.2.posterid with
    | none => (acc, some "KeyError")
    | some u => persistLoop users rest (acc ++ [mkStoredComment kv u])

/-- The comment persist step of `FeedBackup.backup`: nothing happens when
Phase A produced no metadata; otherwise the fetched bodies are keyed by
derived parent id, sorted ascending (stably), and written in that order.
The result is the ordered list of records handed to
`JournalStorage.add_comment` plus the uncaught exception, if any. -/
def FeedBackup.persistComments (users : List (Nat × String))
    (metaComments : List (Nat × String)) (bodies : List (Nat × CommentBody)) :
    List StoredComment × Option String :=
  if metaComments.isEmpty then ([], none)
  else
    match keyedBodies bodies with
    | .error _ => ([], some "TypeError")
    | .ok keyed => persistLoop users (List.insertionSort bodyKeyLE keyed) []

/-! ## Comments tree (CommentsTree) -/

/-- The fields of one comment as consumed by `CommentsTree.add_comment`. -/
structure CommentRec where
  comment_id : Nat
  comment_parent_id : Nat
  state : String
deriving Repr, DecidableEq

/-- A node of the append-only comments tree: the record, the `_skip` flag,
and the ordered list of child nodes (`comment['comments']`). -/
inductive CTree where
  | node (rec : CommentRec) (skip : Bool) (children : List CTree)

/-- Level search of `find_place_by_parent_id`: scan the context list for a
node whose id is `pid` and append `obj` to that node's children. -/
def tryLevel (pid : Nat) (obj : CTree) : List CTree → Option (List CTree)
  | [] => none
  | CTree.node c s ch :: rest =>
    if c.comment_id = pid then some (CTree.node c s (ch ++ [obj]) :: rest)
    else (tryLevel pid obj rest).map (CTree.node c s ch :: ·)

/-- Recursive descent of `find_place_by_parent_id`: for each node of the
context in order, search its subtree (level first, then deeper) and
append `obj` at the first match. -/
def tryDeep (pid : Nat) (obj : CTree) : List CTree → Option (List CTree)
  | [] => none
  | CTree.node c s ch :: rest =>
    match
      (match tryLevel pid obj ch with
       | some r => some r
       | none => tryDeep pid obj ch) with
    | some ch2 => some (CTree.node c s ch2 :: rest)
    | none => (tryDeep pid obj rest).map (CTree.node c s ch :: ·)
termination_by l => sizeOf l

/-- `find_place_by_parent_id` over a context combined with the append:
the current level is scanned before descending (Python checks
`comment_ids` of the context first, then recurses into children). -/
def findPlaceInsert (pid : Nat) (obj : CTree) (ctx : List CTree) : Option (List CTree) :=
  match tryLevel pid obj ctx with
  | some r => some r
  | none => tryDeep pid obj ctx

/-- Models `CommentsTree.add_comment` on the root tree list: parent id 0
appends at the root; otherwise the parent is searched in the whole tree,
and a failed top-level search is the fatal `RuntimeError`. -/
def CommentsTree.add_comment (t : List CTree) (c : CommentRec) : Except String (List CTree) :=
  if c.comment_parent_id = 0 then .ok (t ++ [CTree.node c false []])
  else
    match findPlaceInsert c.comment_parent_id (CTree.node c false []) t with
    | some t2 => .ok t2
    | none => .error "Top-level search should not fail"

/-- Feeding a comment list to `CommentsTree.add_comment` one record at a
time, starting from the tree built so far. -/
def buildTree : List CTree → List CommentRec → Except String (List CTree)
  | t, [] => .ok t
  | t, c :: rest =>
    match CommentsTree.add_comment t c with
    | .ok t2 => buildTree t2 rest
    | .error e => .error e

/-- Flattens a tree list into (parent id, record) pairs: a node directly
in the flattened context is paired with `pid`, and its children recurse
with the node's own id.  `flattenList 0 t` of a built tree therefore lists
every node once together with the id of the node it hangs under (0 for the
root level). -/
def flattenList (pid : Nat) : List CTree → List (Nat × CommentRec)
  | [] => []
  | CTree.node c _ ch :: rest =>
    (pid, c) :: (flattenList c.comment_id ch ++ flattenList pid rest)
termination_by l => sizeOf l

/-- All comment ids present in a tree list. -/
def treeIds (t : List CTree) : List Nat :=
  (flattenList 0 t).map fun p => p.2.comment_id

/-- All comment ids present in a tree list, computed structurally (equal
to `treeIds` up to the flattening label, see `allIds_eq_flatten_ids`). -/
def allIds : List CTree → List Nat
  | [] => []
  | CTree.node c _ ch :: rest => c.comment_id :: (allIds ch ++ allIds rest)
termination_by l => sizeOf l

/-- The precedence discipline under which the tree builder is used: every
non-root parent reference points at a comment appearing earlier in the
list (`seen` carries the ids already inserted). -/
def precedenceOKFrom (seen : List Nat) : List CommentRec → Bool
  | [] => true
  | c :: rest =>
    (c.comment_parent_id == 0 || seen.contains c.comment_parent_id) &&
      precedenceOKFrom (c.comment_id :: seen) rest

/-- Precedence discipline for a whole input list. -/
def precedenceOK (cs : List CommentRec) : Bool := precedenceOKFrom [] cs

/-! ## Orphan marking (CommentsTree.mark_orphans)

The `_skip` flags live on the tree's node objects; assuming distinct
comment ids (the store holds one comment per id) they are modelled as a
map from comment id to flag, and `c.comments` as a function `childrenOf`
from a node's id to its direct children's ids. -/

/-- One iteration of `mark_orphans`: set the flag of `c` to "skip" exactly
when `c` has no child whose flag is currently unset. -/
def markStep (childrenOf : Nat → List Nat) (m : Nat → Bool) (c : Nat) : Nat → Bool :=
  fun x => if x = c then (childrenOf c).all (fun d => m d) else m x

/-- Folding `markStep` over a processing order. -/
def markFold (childrenOf : Nat → List Nat) : List Nat → (Nat → Bool) → (Nat → Bool)
  | [], m => m
  | c :: rest, m => markFold childrenOf rest (markStep childrenOf m c)

/-- Models `CommentsTree.mark_orphans`: the moderation-hidden comments
(`deleted_comments`, given by id) are processed in descending id order
(`sorted(..., reverse=True)`), each getting its flag set from the current
flags of its direct children; all flags start unset (`_skip = False` from
`add_comment`). -/
def CommentsTree.mark_orphans (childrenOf : Nat → List Nat) (hidden : List Nat) :
    Nat → Bool :=
  markFold childrenOf (List.insertionSort (fun a b => a ≥ b) hidden) (fun _ => false)

/-! ## Claim C8: malformed parent reference handling -/

/-- C8 counterexample: the claim says deriving `comment_parent_id` never
raises for any shape of the parent-id field, but a non-numeric non-string
value (Python `None`) makes `int()` raise `TypeError`, which
`_comment_parent_id` does not catch. -/
theorem comment_parent_id_raises_on_vnone :
    FeedBackup.comment_parent_id PyVal.vnone = Except.error PyErr.typeError := rfl

/-- C8 (amended): deriving `comment_parent_id` tolerates integer fields
(passed through) and string fields (a string that does not parse as an
integer raises `ValueError`, which is caught and defaulted to 0); a
non-numeric non-string field raises an uncaught `TypeError`. -/
theorem comment_parent_id_characterization :
    (∀ n : Int, FeedBackup.comment_parent_id (PyVal.vint n) = Except.ok n) ∧
    (∀ s : String, pyStrToInt s = none →
      FeedBackup.comment_parent_id (PyVal.vstr s) = Except.ok 0) ∧
    (∀ s : String, ∀ n : Int, pyStrToInt s = some n →
      FeedBackup.comment_parent_id (PyVal.vstr s) = Except.ok n) ∧
    ((FeedBackup.comment_parent_id PyVal.vnone).isOk = false) := by
  refine ⟨fun n => rfl, fun s h => ?_, fun s n h => ?_, rfl⟩
  · simp [FeedBackup.comment_parent_id, pyInt, h]
  · simp [FeedBackup.comment_parent_id, pyInt, h]

/-- C8 witness: a malformed string parent id is defaulted to 0. -/
theorem comment_parent_id_characterization_witness :
    FeedBackup.comment_parent_id (PyVal.vstr "12abc") = Except.ok 0 :=
  comment_parent_id_characterization.2.1 "12abc" (by decide)

/-! ## Claim C9: idempotent write -/

/-- C9 counterexample: writing the same comment twice is not observably
the same as writing it once — the in-memory per-entry list accumulates a
duplicate (`self.comments[entry_id].append(comment)` is cumulative). -/
theorem add_comment_double_write_cumulative :
    (((JournalStorage.empty.add_comment
        { entry_id := 1, comment_id := 10, comment_parent_id := 0, username := "",
          payload := { jitemid := 1, parentid := PyVal.vint 0, posterid := 0, body := "b" } }).add_comment
        { entry_id := 1, comment_id := 10, comment_parent_id := 0, username := "",
          payload := { jitemid := 1, parentid := PyVal.vint 0, posterid := 0, body := "b" } }).comments 1).length = 2 ∧
    (((JournalStorage.empty.add_comment
        { entry_id := 1, comment_id := 10, comment_parent_id := 0, username := "",
          payload := { jitemid := 1, parentid := PyVal.vint 0, posterid := 0, body := "b" } }).comments 1).length = 1) := by
  constructor <;> simp [JournalStorage.add_comment, JournalStorage.empty]

/-- C9 (amended): `add_entry` is idempotent on the full storage state
(in-memory index and disk); `add_comment` is idempotent on disk (the
per-id file is overwritten with the same content) but appends to the
in-memory per-entry list on every call, so a double write leaves a
duplicate in the index. -/
theorem storage_write_idempotence :
    (∀ (s : JournalStorage) (ev : EventRec) (t : String),
      (s.add_entry ev t).add_entry ev t = s.add_entry ev t) ∧
    (∀ (s : JournalStorage) (c : StoredComment),
      ((s.add_comment c).add_comment c).diskComments = (s.add_comment c).diskComments) ∧
    (∀ (s : JournalStorage) (c : StoredComment),
      ((s.add_comment c).add_comment c).comments c.entry_id
        = s.comments c.entry_id ++ [c, c] ∧
      (s.add_comment c).comments c.entry_id = s.comments c.entry_id ++ [c]) := by
  refine ⟨fun s ev t => ?_, fun s c => ?_, fun s c => ⟨?_, ?_⟩⟩
  · ext i
    all_goals simp [JournalStorage.add_entry]
    · by_cases h : i = ev.itemid <;> simp [h]
    · by_cases h : i = ev.itemid <;> simp [h]
  · funext i
    by_cases h : i = c.comment_id <;> simp [JournalStorage.add_comment, h]
  · simp [JournalStorage.add_comment]
  · simp [JournalStorage.add_comment]

/-! ## Claim C2: path sandbox -/

/-- C2 counterexample: the absolute target `/data/jx` resolves outside
the store root `/data/j` (it is a sibling whose name merely extends the
root's), yet `ensure_dir` raises no error and creates the directory:
the check is a string-prefix test, not a containment test. -/
theorem ensure_dir_escapes_root :
    isWithin "/data/j" (resolvedTarget "/data/j" "/data/jx") = false ∧
    JournalStorage.ensure_dir "/data/j" [] "/data/jx" =
      Except.ok (["/data/jx"], "/data/jx") := by
  constructor
  · decide
  · rfl

/-- C2 (amended): `ensure_dir` rejects exactly the absolute targets that
do not have the root as a string prefix — in that case it raises the
path-violation `ValueError` and performs no filesystem mutation; every
other directory request proceeds to `makedirs` (even when the resolved
target lies outside the root, as for relative targets with `..` segments
or sibling-prefix absolute targets), and `save_file` writes its joined
target unconditionally, with no path check at all. -/
theorem ensure_dir_check_characterization :
    (∀ (root dir : String) (fs : List String),
      pyStartswith dir "/" = true → pyStartswith dir root = false →
      JournalStorage.ensure_dir root fs dir =
        Except.error ("Path should be either local or inside " ++ root)) ∧
    (∀ (root dir : String) (fs : List String),
      (pyStartswith dir "/" = true → pyStartswith dir root = true) →
      ∃ r, JournalStorage.ensure_dir root fs dir = Except.ok r) ∧
    (∀ (files : List (String × String)) (path filename data : String),
      JournalStorage.save_file files path filename data
        = (pathJoin path filename, data) :: files) := by
  refine ⟨fun root dir fs habs hpre => ?_, fun root dir fs h => ?_, fun _ _ _ _ => rfl⟩
  · simp [JournalStorage.ensure_dir, habs, hpre]
  · have hcond : (pyStartswith dir "/" && !(pyStartswith dir root)) = false := by
      cases habs : pyStartswith dir "/" with
      | false => simp
      | true => simp [h habs]
    unfold JournalStorage.ensure_dir
    rw [hcond]
    simp only [Bool.false_eq_true, if_false]
    split <;> split <;> exact ⟨_, rfl⟩

/-- C2 witness: a concrete rejected write — target `/etc/passwd` against
root `/data/j` raises the path-violation error. -/
theorem ensure_dir_check_characterization_witness :
    JournalStorage.ensure_dir "/data/j" [] "/etc/passwd" =
      Except.error ("Path should be either local or inside /data/j") :=
  ensure_dir_check_characterization.1 "/data/j" "/etc/passwd" [] (by decide) (by decide)

/-! ## Claim C5: cursor advance on empty pages -/

/-- C5 counterexample: a page with zero journal items but a non-journal
item (kind "C", time 7) leaves the cursor unchanged — the code only
advances `last_sync` when the page contained journal items, never to the
time of the last any-type item. -/
theorem listStep_ignores_nonjournal_times :
    ((({ syncitems := [{ kind := "C", item_id := 5, time := 7 }], count := 1, total := 2 } :
        SyncResp)).syncitems.getLast?.map (fun e => e.time) = some 7) ∧
    (FeedBackup.listStep initListState
      { syncitems := [{ kind := "C", item_id := 5, time := 7 }], count := 1, total := 2 }).last_sync
      = none := by
  constructor <;> decide

/-- C5 (amended): a page with zero journal items leaves the cursor
unchanged regardless of any other items it carries; when journal items
are present the cursor advances to the time of the last journal item of
the page; and a page reporting `count == total` ends the loop on the next
iteration regardless of the cursor. -/
theorem listStep_cursor_characterization :
    (∀ (st : ListState) (resp : SyncResp), journalPairs resp = [] →
      (FeedBackup.listStep st resp).last_sync = st.last_sync) ∧
    (∀ (st : ListState) (resp : SyncResp) (p : Nat × Nat),
      (journalPairs resp).getLast? = some p →
      (FeedBackup.listStep st resp).last_sync = some p.2) ∧
    (∀ (srv : Option Nat → SyncResp) (fuel : Nat) (st : ListState),
      st.total = some st.count →
      FeedBackup.list_entries srv (fuel + 1) st = some st.items) := by
  refine ⟨fun st resp h => ?_, fun st resp p h => ?_, fun srv fuel st h => ?_⟩
  · simp [FeedBackup.listStep, h]
  · simp [FeedBackup.listStep, h]
  · simp [FeedBackup.list_entries, h]

/-- C5 witness: the loop returns immediately on a state whose last page
reported `count == total`. -/
theorem listStep_cursor_characterization_witness :
    FeedBackup.list_entries (fun _ => { syncitems := [], count := 0, total := 0 }) 3
      { items := [(1, 2)], last_sync := none, count := 4, total := some 4 } = some [(1, 2)] :=
  listStep_cursor_characterization.2.2 _ 2 _ rfl

/-! ## Claims C6 and C10: the comment persist step -/

/-- The keys computed for the sort do not change the underlying bodies:
a successful keying returns each body, in order, paired with its key. -/
theorem keyedBodies_map_fst (bodies : List (Nat × CommentBody))
    (keyed : List ((Nat × CommentBody) × Int))
    (h : keyedBodies bodies = Except.ok keyed) : keyed.map Prod.fst = bodies := by
  induction bodies generalizing keyed with
  | nil =>
    simp only [keyedBodies] at h
    cases h
    rfl
  | cons b rest ih =>
    simp only [keyedBodies] at h
    cases hb : FeedBackup.comment_parent_id b.2.parentid with
    | error e => rw [hb] at h; cases h
    | ok pid =>
      rw [hb] at h
      cases hrest : keyedBodies rest with
      | error e => rw [hrest] at h; cases h
      | ok ks =>
        rw [hrest] at h
        cases h
        simp [ih ks hrest]

/-- The write loop on a run of resolvable bodies: every record is written
in order, with the resolved username, and no error is raised. -/
theorem persistLoop_all_resolvable (users : List (Nat × String))
    (l : List ((Nat × CommentBody) × Int)) (acc : List StoredComment)
    (h : ∀ kv ∈ l, resolveUsername users kv.1.2.posterid ≠ none) :
    persistLoop users l acc =
      (acc ++ l.map (fun kv =>
        mkStoredComment kv ((resolveUsername users kv.1.2.posterid).getD "")), none) := by
  induction l generalizing acc with
  | nil => simp [persistLoop]
  | cons kv rest ih =>
    have hkv := h kv (List.mem_cons_self kv rest)
    cases hr : resolveUsername users kv.1.2.posterid with
    | none => exact absurd hr hkv
    | some u =>
      simp only [persistLoop, hr]
      rw [ih (acc ++ [mkStoredComment kv u]) (fun x hx => h x (List.mem_cons_of_mem kv hx))]
      simp [hr]

/-- The write loop aborts at the first unresolvable body: the records
before it are written, it and everything after it are dropped, and the
`KeyError` escapes. -/
theorem persistLoop_abort (users : List (Nat × String))
    (l1 l2 : List ((Nat × CommentBody) × Int)) (kv : (Nat × CommentBody) × Int)
    (acc : List StoredComment)
    (h1 : ∀ x ∈ l1, resolveUsername users x.1.2.posterid ≠ none)
    (hbad : resolveUsername users kv.1.2.posterid = none) :
    persistLoop users (l1 ++ kv :: l2) acc =
      (acc ++ l1.map (fun x =>
        mkStoredComment x ((resolveUsername users x.1.2.posterid).getD "")), some "KeyError") := by
  induction l1 generalizing acc with
  | nil => simp [persistLoop, hbad]
  | cons x rest ih =>
    have hx := h1 x (List.mem_cons_self x rest)
    cases hr : resolveUsername users x.1.2.posterid with
    | none => exact absurd hr hx
    | some u =>
      simp only [List.cons_append, persistLoop, hr, List.append_eq]
      rw [ih (acc ++ [mkStoredComment x u]) (fun y hy => h1 y (List.mem_cons_of_mem x hy))]
      simp [hr]

/-- C6 counterexample: with Phase-A metadata for comment 4 only, a fetched
body for comment 5 — which has no corresponding metadata — is still
persisted (the code iterates over the bodies alone; it never merges with,
or filters by, the Phase-A metadata map). -/
theorem persist_writes_body_without_meta :
    FeedBackup.persistComments [] [(4, "m")]
        [(5, { jitemid := 1, parentid := PyVal.vint 0, posterid := 0, body := "b" })] =
      ([{ entry_id := 1, comment_id := 5, comment_parent_id := 0, username := "",
          payload := { jitemid := 1, parentid := PyVal.vint 0, posterid := 0, body := "b" } }],
       none) ∧
    ¬ (5 ∈ ([(4, "m")] : List (Nat × String)).map Prod.fst) := by
  constructor
  · rfl
  · decide

/-- C6 (amended): when Phase A produced any metadata, every fetched body
is written directly to the store — with extras derived from the body
record alone (entry id from `jitemid`, comment id from the key, the
defensively derived parent id, the resolved username) and with no merging
against, or filtering by, the Phase-A metadata — and the records are
written in ascending order of derived parent id (a stable sort). -/
theorem persist_comments_characterization (users mc : List (Nat × String))
    (bodies : List (Nat × CommentBody)) (keyed : List ((Nat × CommentBody) × Int))
    (hmc : mc ≠ [])
    (hk : keyedBodies bodies = Except.ok keyed)
    (hu : ∀ kv ∈ keyed, resolveUsername users kv.1.2.posterid ≠ none) :
    FeedBackup.persistComments users mc bodies =
      ((List.insertionSort bodyKeyLE keyed).map
        (fun kv => mkStoredComment kv ((resolveUsername users kv.1.2.posterid).getD "")),
       none) ∧
    ((FeedBackup.persistComments users mc bodies).1.map (fun w => w.comment_id)).Perm
      (bodies.map Prod.fst) ∧
    List.Pairwise (fun a b => a ≤ b)
      ((FeedBackup.persistComments users mc bodies).1.map (fun w => w.comment_parent_id)) := by
  have hmc2 : mc.isEmpty = false := by
    cases mc with
    | nil => exact absurd rfl hmc
    | cons a l => rfl
  have hsortmem : ∀ kv ∈ List.insertionSort bodyKeyLE keyed,
      resolveUsername users kv.1.2.posterid ≠ none := by
    intro kv hkv
    exact hu kv ((List.perm_insertionSort bodyKeyLE keyed).mem_iff.mp hkv)
  have hmain : FeedBackup.persistComments users mc bodies =
      ((List.insertionSort bodyKeyLE keyed).map
        (fun kv => mkStoredComment kv ((resolveUsername users kv.1.2.posterid).getD "")),
       none) := by
    simp only [FeedBackup.persistComments, hmc2, Bool.false_eq_true, if_false, hk]
    rw [persistLoop_all_resolvable users _ [] hsortmem]
    simp
  refine ⟨hmain, ?_, ?_⟩
  · rw [hmain]
    simp only [List.map_map]
    have h1 : ((List.insertionSort bodyKeyLE keyed).map
        ((fun w => w.comment_id) ∘
          (fun kv => mkStoredComment kv ((resolveUsername users kv.1.2.posterid).getD "")))).Perm
        (keyed.map ((fun w => w.comment_id) ∘
          (fun kv => mkStoredComment kv ((resolveUsername users kv.1.2.posterid).getD "")))) :=
      (List.perm_insertionSort bodyKeyLE keyed).map _
    refine h1.trans ?_
    have h2 : keyed.map ((fun w => w.comment_id) ∘
        (fun kv => mkStoredComment kv ((resolveUsername users kv.1.2.posterid).getD "")))
        = keyed.map (fun kv => kv.1.1) := by
      simp [mkStoredComment]
    rw [h2]
    have h3 : keyed.map (fun kv => kv.1.1) = (keyed.map Prod.fst).map Prod.fst := by
      simp
    rw [h3, keyedBodies_map_fst bodies keyed hk]
  · rw [hmain]
    simp only [List.map_map]
    have hsorted : List.Pairwise bodyKeyLE (List.insertionSort bodyKeyLE keyed) :=
      List.sorted_insertionSort bodyKeyLE keyed
    have h4 : ((fun w => w.comment_parent_id) ∘
        (fun kv => mkStoredComment kv ((resolveUsername users kv.1.2.posterid).getD "")))
        = fun kv => kv.2 := by
      funext kv
      rfl
    rw [h4]
    exact hsorted.map _ (fun a b hab => hab)

/-- C6 witness: two resolvable bodies with parent ids 2 and 1 are both
written (no metadata filtering) in ascending parent-id order. -/
theorem persist_comments_characterization_witness :
    FeedBackup.persistComments [] [(1, "m")]
        [(5, { jitemid := 1, parentid := PyVal.vint 2, posterid := 0, body := "a" }),
         (6, { jitemid := 1, parentid := PyVal.vint 1, posterid := 0, body := "b" })] =
      ([{ entry_id := 1, comment_id := 6, comment_parent_id := 1, username := "",
          payload := { jitemid := 1, parentid := PyVal.vint 1, posterid := 0, body := "b" } },
        { entry_id := 1, comment_id := 5, comment_parent_id := 2, username := "",
          payload := { jitemid := 1, parentid := PyVal.vint 2, posterid := 0, body := "a" } }],
       none) := by
  have h := (persist_comments_characterization [] [(1, "m")]
      [(5, { jitemid := 1, parentid := PyVal.vint 2, posterid := 0, body := "a" }),
       (6, { jitemid := 1, parentid := PyVal.vint 1, posterid := 0, body := "b" })]
      [((5, { jitemid := 1, parentid := PyVal.vint 2, posterid := 0, body := "a" }), 2),
       ((6, { jitemid := 1, parentid := PyVal.vint 1, posterid := 0, body := "b" }), 1)]
      (by decide) rfl (by decide)).1
  rw [h]
  decide

/-- C10: username resolution in the persist loop is total only for
anonymous posters (falsy `posterid` maps to the empty string); a body
whose `posterid` is truthy but absent from the stored username map raises
the uncaught `KeyError`, which aborts the whole comment persist pass:
the (sorted) bodies before it are persisted, it and all later ones are
not. -/
theorem persist_comments_missing_username_aborts (users mc : List (Nat × String))
    (bodies : List (Nat × CommentBody)) (keyed l1 l2 : List ((Nat × CommentBody) × Int))
    (kv : (Nat × CommentBody) × Int)
    (hmc : mc ≠ [])
    (hk : keyedBodies bodies = Except.ok keyed)
    (hsplit : List.insertionSort bodyKeyLE keyed = l1 ++ kv :: l2)
    (h1 : ∀ x ∈ l1, resolveUsername users x.1.2.posterid ≠ none)
    (hbad : kv.1.2.posterid ≠ 0)
    (hmiss : users.lookup kv.1.2.posterid = none) :
    resolveUsername users 0 = some "" ∧
    FeedBackup.persistComments users mc bodies =
      (l1.map (fun x => mkStoredComment x ((resolveUsername users x.1.2.posterid).getD "")),
       some "KeyError") := by
  have hmc2 : mc.isEmpty = false := by
    cases mc with
    | nil => exact absurd rfl hmc
    | cons a l => rfl
  refine ⟨by simp [resolveUsername], ?_⟩
  have hbadres : resolveUsername users kv.1.2.posterid = none := by
    simp [resolveUsername, hbad, hmiss]
  simp only [FeedBackup.persistComments, hmc2, Bool.false_eq_true, if_false, hk]
  rw [hsplit, persistLoop_abort users l1 l2 kv [] h1 hbadres]
  simp

/-- C10 witness: with usernames {3 ↦ "u"}, the body with poster 3 is
persisted and the later body with unknown poster 9 aborts the pass. -/
theorem persist_comments_missing_username_aborts_witness :
    FeedBackup.persistComments [(3, "u")] [(1, "m")]
        [(5, { jitemid := 1, parentid := PyVal.vint 1, posterid := 3, body := "a" }),
         (6, { jitemid := 2, parentid := PyVal.vint 2, posterid := 9, body := "b" })] =
      ([{ entry_id := 1, comment_id := 5, comment_parent_id := 1, username := "u",
          payload := { jitemid := 1, parentid := PyVal.vint 1, posterid := 3, body := "a" } }],
       some "KeyError") := by
  have h := (persist_comments_missing_username_aborts [(3, "u")] [(1, "m")]
      [(5, { jitemid := 1, parentid := PyVal.vint 1, posterid := 3, body := "a" }),
       (6, { jitemid := 2, parentid := PyVal.vint 2, posterid := 9, body := "b" })]
      [((5, { jitemid := 1, parentid := PyVal.vint 1, posterid := 3, body := "a" }), 1),
       ((6, { jitemid := 2, parentid := PyVal.vint 2, posterid := 9, body := "b" }), 2)]
      [((5, { jitemid := 1, parentid := PyVal.vint 1, posterid := 3, body := "a" }), 1)]
      []
      ((6, { jitemid := 2, parentid := PyVal.vint 2, posterid := 9, body := "b" }), 2)
      (by decide) rfl rfl (by decide) (by decide) rfl).2
  rw [h]
  decide

/-! ## Claim C1: entry sync skip logic and second-run idempotence -/

/-- A sync step for one pair only writes at that pair's entry id (given a
faithful fetch oracle); every other id's stored record is untouched. -/
theorem entrySyncStep_entries_other (fetch : Nat → EventRec) (s : JournalStorage)
    (d i : Nat) (t : String) (j : Nat)
    (hfetch : (fetch i).itemid = i) (hne : j ≠ i) :
    ((FeedBackup.entrySyncStep fetch (s, d) (i, t)).1).entries j = s.entries j := by
  simp only [FeedBackup.entrySyncStep]
  cases hres : s.entries i with
  | none => simp [JournalStorage.add_entry, hfetch, hne]
  | some e =>
    by_cases ht : e.sync_time = some t
    · simp [hres, ht]
    · simp [hres, ht, JournalStorage.add_entry, hfetch, hne]

/-- After a sync run, every listed pair is matched in the store: its entry
id holds a record whose `sync_time` equals the listed time (assuming the
fetch oracle returns the requested id and the listing maps each id to a
single time). -/
theorem entrySync_matches_after (fetch : Nat → EventRec) (pairs : List (Nat × String))
    (s : JournalStorage) (d i : Nat) (t : String)
    (hfetch : ∀ p ∈ pairs, (fetch p.1).itemid = p.1)
    (hfun : ∀ u, (i, u) ∈ pairs → u = t)
    (hstart : (i, t) ∈ pairs ∨ entryMatches s i t) :
    entryMatches (pairs.foldl (FeedBackup.entrySyncStep fetch) (s, d)).1 i t := by
  induction pairs generalizing s d with
  | nil =>
    cases hstart with
    | inl h => cases h
    | inr h => exact h
  | cons p rest ih =>
    obtain ⟨j, u⟩ := p
    rw [List.foldl_cons]
    have hfetchj : (fetch j).itemid = j := hfetch (j, u) (List.mem_cons_self _ _)
    have hfetchrest : ∀ p ∈ rest, (fetch p.1).itemid = p.1 :=
      fun p hp => hfetch p (List.mem_cons_of_mem _ hp)
    have hfunrest : ∀ u, (i, u) ∈ rest → u = t :=
      fun u hu => hfun u (List.mem_cons_of_mem _ hu)
    have hpair : FeedBackup.entrySyncStep fetch (s, d) (j, u)
        = ((FeedBackup.entrySyncStep fetch (s, d) (j, u)).1,
           (FeedBackup.entrySyncStep fetch (s, d) (j, u)).2) := rfl
    rw [hpair]
    by_cases hij : i = j
    · subst hij
      -- the head pair concerns our id: after the step the store matches
      have hmatch : entryMatches (FeedBackup.entrySyncStep fetch (s, d) (i, u)).1 i u := by
        simp only [FeedBackup.entrySyncStep]
        cases hres : s.entries i with
        | none =>
          refine ⟨{ payload := (fetch i).payload, sync_time := some u }, ?_, rfl⟩
          simp [JournalStorage.add_entry, hfetchj]
        | some e =>
          by_cases ht : e.sync_time = some u
          · refine ⟨e, ?_, ht⟩
            simp [ht, hres]
          · refine ⟨{ payload := (fetch i).payload, sync_time := some u }, ?_, rfl⟩
            simp [ht, JournalStorage.add_entry, hfetchj]
      have hu : u = t := hfun u (List.mem_cons_self _ _)
      subst hu
      exact ih _ _ hfetchrest hfunrest (Or.inr hmatch)
    · -- the head pair concerns a different id
      cases hstart with
      | inl h =>
        rcases List.mem_cons.mp h with heq | hmem
        · cases heq
          exact absurd rfl hij
        · exact ih _ _ hfetchrest hfunrest (Or.inl hmem)
      | inr h =>
        obtain ⟨e, he, het⟩ := h
        refine ih _ _ hfetchrest hfunrest (Or.inr ⟨e, ?_, het⟩)
        rw [entrySyncStep_entries_other fetch s d j u i hfetchj hij]
        exact he

/-- A sync run over pairs that are all already matched does nothing: the
fold returns the accumulator unchanged (zero downloads). -/
theorem entrySync_all_match (fetch : Nat → EventRec) (pairs : List (Nat × String))
    (s : JournalStorage) (d : Nat)
    (h : ∀ p ∈ pairs, entryMatches s p.1 p.2) :
    pairs.foldl (FeedBackup.entrySyncStep fetch) (s, d) = (s, d) := by
  induction pairs with
  | nil => rfl
  | cons p rest ih =>
    obtain ⟨i, t⟩ := p
    obtain ⟨e, he, het⟩ := h (i, t) (List.mem_cons_self _ _)
    rw [List.foldl_cons]
    have hstep : FeedBackup.entrySyncStep fetch (s, d) (i, t) = (s, d) := by
      simp [FeedBackup.entrySyncStep, he, het]
    rw [hstep]
    exact ih (fun p hp => h p (List.mem_cons_of_mem _ hp))

/-- C1: for every discovered `(entry_id, remote_time)` pair the entry body
is fetched and put with `sync_time = remote_time` exactly when the store
does not already hold that id with a stored `sync_time` equal to
`remote_time` (first conjunct, both directions of the skip test); and
running the entry sync a second time against the unchanged listing
performs zero body fetches and returns the store unchanged (second
conjunct).  `hfetch` states that the remote returns the requested entry,
and `hfun` that the unchanged listing assigns each entry id one time. -/
theorem entry_sync_skip_iff_and_idempotent (fetch : Nat → EventRec)
    (pairs : List (Nat × String)) (s0 : JournalStorage)
    (hfetch : ∀ p ∈ pairs, (fetch p.1).itemid = p.1)
    (hfun : ∀ p ∈ pairs, ∀ q ∈ pairs, p.1 = q.1 → p.2 = q.2) :
    (∀ (s : JournalStorage) (d i : Nat) (t : String),
      (FeedBackup.entrySyncStep fetch (s, d) (i, t) = (s.add_entry (fetch i) t, d + 1) ↔
        ¬ entryMatches s i t) ∧
      (FeedBackup.entrySyncStep fetch (s, d) (i, t) = (s, d) ↔ entryMatches s i t)) ∧
    FeedBackup.entrySync fetch (FeedBackup.entrySync fetch s0 pairs).1 pairs
      = ((FeedBackup.entrySync fetch s0 pairs).1, 0) := by
  constructor
  · intro s d i t
    have hskip : entryMatches s i t → FeedBackup.entrySyncStep fetch (s, d) (i, t) = (s, d) := by
      rintro ⟨e, he, het⟩
      simp [FeedBackup.entrySyncStep, he, het]
    have hput : ¬ entryMatches s i t →
        FeedBackup.entrySyncStep fetch (s, d) (i, t) = (s.add_entry (fetch i) t, d + 1) := by
      intro hnm
      simp only [FeedBackup.entrySyncStep]
      cases hres : s.entries i with
      | none => rfl
      | some e =>
        by_cases ht : e.sync_time = some t
        · exact absurd ⟨e, hres, ht⟩ hnm
        · simp [ht]
    constructor
    · constructor
      · intro heq hm
        have := (hskip hm).symm.trans heq
        have hd : d = d + 1 := congrArg Prod.snd this
        omega
      · exact hput
    · constructor
      · intro heq
        by_contra hnm
        have := (hput hnm).symm.trans heq
        have hd : d + 1 = d := congrArg Prod.snd this
        omega
      · exact hskip
  · have hmatched : ∀ p ∈ pairs, entryMatches (FeedBackup.entrySync fetch s0 pairs).1 p.1 p.2 := by
      intro p hp
      exact entrySync_matches_after fetch pairs s0 0 p.1 p.2 hfetch
        (fun u hu => hfun (p.1, u) hu p hp rfl)
        (Or.inl (by cases p; exact hp))
    exact entrySync_all_match fetch pairs _ 0 hmatched

/-- C1 witness: a concrete two-entry listing — the second run over the
unchanged listing downloads nothing and leaves the store untouched. -/
theorem entry_sync_skip_iff_and_idempotent_witness :
    FeedBackup.entrySync (fun i => { itemid := i, payload := "x" })
        (FeedBackup.entrySync (fun i => { itemid := i, payload := "x" })
          JournalStorage.empty [(1, "a"), (2, "b")]).1 [(1, "a"), (2, "b")]
      = ((FeedBackup.entrySync (fun i => { itemid := i, payload := "x" })
          JournalStorage.empty [(1, "a"), (2, "b")]).1, 0) :=
  (entry_sync_skip_iff_and_idempotent (fun i => { itemid := i, payload := "x" })
    [(1, "a"), (2, "b")] JournalStorage.empty (by decide) (by decide)).2

/-! ## Claim C7: orphan pruning -/

instance : IsTotal Nat (fun a b => a ≥ b) := ⟨fun a b => le_total b a⟩

instance : IsTrans Nat (fun a b => a ≥ b) := ⟨fun _ _ _ h h2 => le_trans h2 h⟩

/-- Pointwise-equal predicates give the same `all` over a list. -/
theorem list_all_congr (l : List Nat) (f g : Nat → Bool) (h : ∀ d ∈ l, f d = g d) :
    l.all f = l.all g := by
  induction l with
  | nil => rfl
  | cons x rest ih =>
    simp only [List.all_cons]
    rw [h x (List.mem_cons_self _ _), ih (fun d hd => h d (List.mem_cons_of_mem _ hd))]

/-- The marking fold never touches ids outside the processing list. -/
theorem markFold_not_mem (childrenOf : Nat → List Nat) (L : List Nat) (m : Nat → Bool)
    (x : Nat) (hx : x ∉ L) : markFold childrenOf L m x = m x := by
  induction L generalizing m with
  | nil => rfl
  | cons c rest ih =>
    have hxc : x ≠ c := fun h => hx (h ▸ List.mem_cons_self c rest)
    rw [markFold, ih (markStep childrenOf m c) (fun h => hx (List.mem_cons_of_mem c h))]
    simp [markStep, hxc]

/-- On a strictly descending processing list whose members only have
children with larger ids, the final flag of each processed id equals
"all its direct children's final flags are set": the flags read at the
moment an id is processed agree with the final flags. -/
theorem markFold_fixpoint (childrenOf : Nat → List Nat) (L : List Nat) (m : Nat → Bool)
    (hdesc : List.Pairwise (fun a b => b < a) L)
    (hchild : ∀ c ∈ L, ∀ d ∈ childrenOf c, c < d) :
    ∀ c ∈ L, markFold childrenOf L m c
      = (childrenOf c).all (fun d => markFold childrenOf L m d) := by
  induction L generalizing m with
  | nil => intro c hc; cases hc
  | cons c rest ih =>
    intro c2 hc2
    have hlt : ∀ b ∈ rest, b < c := (List.pairwise_cons.mp hdesc).1
    rcases List.mem_cons.mp hc2 with heq | hmem
    · subst heq
      have hcnotrest : c2 ∉ rest := fun h => lt_irrefl c2 (hlt c2 h)
      have hself : markFold childrenOf (c2 :: rest) m c2
          = (childrenOf c2).all (fun d => m d) := by
        rw [markFold, markFold_not_mem childrenOf rest _ c2 hcnotrest]
        simp [markStep]
      rw [hself]
      refine list_all_congr _ _ _ fun d hd => ?_
      have hdc : c2 < d := hchild c2 (List.mem_cons_self _ _) d hd
      have hdnot : d ∉ c2 :: rest := by
        intro hmem2
        rcases List.mem_cons.mp hmem2 with h2 | h2
        · subst h2
          exact lt_irrefl d hdc
        · exact (lt_asymm (hlt d h2)) hdc
      rw [markFold_not_mem childrenOf (c2 :: rest) m d hdnot]
    · rw [markFold]
      exact ih (markStep childrenOf m c) (List.Pairwise.of_cons hdesc)
        (fun x hx => hchild x (List.mem_cons_of_mem _ hx)) c2 hmem

/-- C7: processing the moderation-hidden comments in descending id order,
a hidden comment's final flag is set exactly when every direct child's
final flag is set (vacuously when childless); non-hidden comments are
never marked.  Consequently a hidden comment whose only child is a
childless hidden comment is marked together with that child, and a hidden
comment with a non-hidden (visible) child is never marked.  Hypotheses:
comment ids are distinct and children carry larger ids than their parent
(as produced by the ascending-id tree build). -/
theorem mark_orphans_characterization (childrenOf : Nat → List Nat) (hidden : List Nat)
    (hnodup : hidden.Nodup)
    (hchild : ∀ c ∈ hidden, ∀ d ∈ childrenOf c, c < d) :
    (∀ c ∈ hidden, CommentsTree.mark_orphans childrenOf hidden c
      = (childrenOf c).all (fun d => CommentsTree.mark_orphans childrenOf hidden d)) ∧
    (∀ x, x ∉ hidden → CommentsTree.mark_orphans childrenOf hidden x = false) ∧
    (∀ a b : Nat, a ∈ hidden → b ∈ hidden → childrenOf a = [b] → childrenOf b = [] →
      CommentsTree.mark_orphans childrenOf hidden a = true ∧
      CommentsTree.mark_orphans childrenOf hidden b = true) ∧
    (∀ a b : Nat, a ∈ hidden → b ∉ hidden → b ∈ childrenOf a →
      CommentsTree.mark_orphans childrenOf hidden a = false) := by
  have hperm := List.perm_insertionSort (fun a b : Nat => a ≥ b) hidden
  have hmemiff : ∀ x : Nat, x ∈ List.insertionSort (fun a b : Nat => a ≥ b) hidden ↔ x ∈ hidden :=
    fun x => hperm.mem_iff
  have hsorted : List.Pairwise (fun a b : Nat => a ≥ b)
      (List.insertionSort (fun a b : Nat => a ≥ b) hidden) :=
    List.sorted_insertionSort _ hidden
  have hnodup2 : (List.insertionSort (fun a b : Nat => a ≥ b) hidden).Nodup :=
    (hperm.nodup_iff).mpr hnodup
  have hdesc : List.Pairwise (fun a b : Nat => b < a)
      (List.insertionSort (fun a b : Nat => a ≥ b) hidden) :=
    (hsorted.and hnodup2).imp (fun h => lt_of_le_of_ne h.1 (Ne.symm h.2))
  have hchild2 : ∀ c ∈ List.insertionSort (fun a b : Nat => a ≥ b) hidden,
      ∀ d ∈ childrenOf c, c < d :=
    fun c hc => hchild c ((hmemiff c).mp hc)
  have hfix := markFold_fixpoint childrenOf _ (fun _ => false) hdesc hchild2
  have hmain : ∀ c ∈ hidden, CommentsTree.mark_orphans childrenOf hidden c
      = (childrenOf c).all (fun d => CommentsTree.mark_orphans childrenOf hidden d) :=
    fun c hc => hfix c ((hmemiff c).mpr hc)
  have hout : ∀ x, x ∉ hidden → CommentsTree.mark_orphans childrenOf hidden x = false :=
    fun x hx => markFold_not_mem childrenOf _ (fun _ => false) x (fun h => hx ((hmemiff x).mp h))
  refine ⟨hmain, hout, ?_, ?_⟩
  · intro a b ha hb hab hbnil
    have hbtrue : CommentsTree.mark_orphans childrenOf hidden b = true := by
      rw [hmain b hb, hbnil]
      rfl
    refine ⟨?_, hbtrue⟩
    rw [hmain a ha, hab]
    simp [hbtrue]
  · intro a b ha hb hbchild
    rw [hmain a ha]
    cases hall : (childrenOf a).all (fun d => CommentsTree.mark_orphans childrenOf hidden d) with
    | false => rfl
    | true =>
      have := List.all_eq_true.mp hall b hbchild
      rw [hout b hb] at this
      cases this

/-- C7 witness: hidden comment 1 whose only child is the childless hidden
comment 2 — both end up marked prunable. -/
theorem mark_orphans_characterization_witness :
    CommentsTree.mark_orphans (fun c => if c = 1 then [2] else []) [1, 2] 1 = true ∧
    CommentsTree.mark_orphans (fun c => if c = 1 then [2] else []) [1, 2] 2 = true :=
  (mark_orphans_characterization (fun c => if c = 1 then [2] else []) [1, 2]
    (by decide) (by decide)).2.2.1 1 2 (by decide) (by decide) rfl rfl

/-! ## Claim C3: the comment tree invariant -/

/-- Flattening distributes over list append (same parent label). -/
theorem flattenList_append (P : Nat) (l1 l2 : List CTree) :
    flattenList P (l1 ++ l2) = flattenList P l1 ++ flattenList P l2 := by
  induction l1 with
  | nil => simp [flattenList]
  | cons a rest ih =>
    cases a with
    | node c s ch => simp [flattenList, ih]

/-- The ids collected by flattening do not depend on the root label. -/
theorem allIds_eq_flatten_ids (ctx : List CTree) :
    ∀ P : Nat, (flattenList P ctx).map (fun p => p.2.comment_id) = allIds ctx := by
  induction ctx using allIds.induct with
  | case1 => intro P; simp [flattenList, allIds]
  | case2 c s ch rest ih1 ih2 =>
    intro P
    simp [flattenList, allIds, ih1, ih2]

/-- A successful level insertion adds exactly one (parent id, record) pair
to the flattening: the fresh leaf hangs under the node whose id was
searched for. -/
theorem tryLevel_flatten (pid : Nat) (orec : CommentRec) (ctx : List CTree) :
    ∀ (P : Nat) (r : List CTree),
      tryLevel pid (CTree.node orec false []) ctx = some r →
      (↑(flattenList P r) : Multiset (Nat × CommentRec))
        = (pid, orec) ::ₘ ↑(flattenList P ctx) := by
  induction ctx with
  | nil => intro P r h; cases h
  | cons a rest ih =>
    cases a with
    | node c s ch =>
      intro P r h
      simp only [tryLevel] at h
      by_cases hc : c.comment_id = pid
      · rw [if_pos hc] at h
        cases h
        subst hc
        simp only [flattenList, flattenList_append, List.append_nil, List.nil_append]
        simp only [← Multiset.cons_coe, ← Multiset.coe_add, ← Multiset.singleton_add]
        abel
      · rw [if_neg hc] at h
        rcases Option.map_eq_some'.mp h with ⟨r2, h2, hr⟩
        subst hr
        simp only [flattenList]
        simp only [← Multiset.cons_coe, ← Multiset.coe_add]
        rw [ih P r2 h2]
        simp only [← Multiset.singleton_add]
        abel

/-- A successful deep insertion adds exactly one (parent id, record) pair
to the flattening, wherever in the subtree forest the parent was found. -/
theorem tryDeep_flatten (pid : Nat) (orec : CommentRec) (ctx : List CTree) :
    ∀ (P : Nat) (r : List CTree),
      tryDeep pid (CTree.node orec false []) ctx = some r →
      (↑(flattenList P r) : Multiset (Nat × CommentRec))
        = (pid, orec) ::ₘ ↑(flattenList P ctx) := by
  induction ctx using tryDeep.induct pid (CTree.node orec false []) with
  | case1 =>
    intro P r h
    rw [tryDeep] at h
    cases h
  | case2 c s ch rest ch2 hmatch ih =>
    intro P r h
    rw [tryDeep, hmatch] at h
    cases h
    have hch2 : (↑(flattenList c.comment_id ch2) : Multiset (Nat × CommentRec))
        = (pid, orec) ::ₘ ↑(flattenList c.comment_id ch) := by
      cases hl : tryLevel pid (CTree.node orec false []) ch with
      | some r2 =>
        rw [hl] at hmatch
        cases hmatch
        exact tryLevel_flatten pid orec ch c.comment_id ch2 hl
      | none =>
        rw [hl] at hmatch
        exact ih c.comment_id ch2 hmatch
    simp only [flattenList]
    simp only [← Multiset.cons_coe, ← Multiset.coe_add]
    rw [hch2]
    simp only [← Multiset.singleton_add]
    abel
  | case3 c s ch rest hmatch ih1 ih2 =>
    intro P r h
    rw [tryDeep, hmatch] at h
    rcases Option.map_eq_some'.mp h with ⟨r2, h2, hr⟩
    subst hr
    simp only [flattenList]
    simp only [← Multiset.cons_coe, ← Multiset.coe_add]
    rw [ih2 P r2 h2]
    simp only [← Multiset.singleton_add]
    abel

/-- `find_place_by_parent_id` plus the append, whole-tree version: a
successful insertion adds exactly the pair (searched parent id, record). -/
theorem findPlaceInsert_flatten (pid : Nat) (orec : CommentRec) (ctx : List CTree)
    (P : Nat) (r : List CTree)
    (h : findPlaceInsert pid (CTree.node orec false []) ctx = some r) :
    (↑(flattenList P r) : Multiset (Nat × CommentRec))
      = (pid, orec) ::ₘ ↑(flattenList P ctx) := by
  simp only [findPlaceInsert] at h
  cases hl : tryLevel pid (CTree.node orec false []) ctx with
  | some r2 =>
    rw [hl] at h
    cases h
    exact tryLevel_flatten pid orec ctx P r hl
  | none =>
    rw [hl] at h
    exact tryDeep_flatten pid orec ctx P r h

/-- A level search that fails finds no node with the searched id at the
current level, and fails on the tail too. -/
theorem tryLevel_none_destruct (pid : Nat) (obj : CTree) (c : CommentRec) (s : Bool)
    (ch rest : List CTree)
    (h : tryLevel pid obj (CTree.node c s ch :: rest) = none) :
    c.comment_id ≠ pid ∧ tryLevel pid obj rest = none := by
  simp only [tryLevel] at h
  by_cases hc : c.comment_id = pid
  · rw [if_pos hc] at h
    cases h
  · rw [if_neg hc] at h
    exact ⟨hc, Option.map_eq_none'.mp h⟩

/-- A failed whole-tree search means the searched id occurs nowhere in
the tree (`RuntimeError` can only fire for a truly absent parent). -/
theorem findPlaceInsert_none_not_mem (pid : Nat) (obj : CTree) (ctx : List CTree) :
    findPlaceInsert pid obj ctx = none → pid ∉ allIds ctx := by
  induction ctx using tryDeep.induct pid obj with
  | case1 =>
    intro _ hmem
    simp [allIds] at hmem
  | case2 c s ch rest ch2 hmatch ih =>
    intro h
    simp only [findPlaceInsert] at h
    cases hl : tryLevel pid obj (CTree.node c s ch :: rest) with
    | some r2 => rw [hl] at h; cases h
    | none =>
      rw [hl] at h
      rw [tryDeep, hmatch] at h
      cases h
  | case3 c s ch rest hmatch ih1 ih2 =>
    intro h
    simp only [findPlaceInsert] at h
    cases hl : tryLevel pid obj (CTree.node c s ch :: rest) with
    | some r2 => rw [hl] at h; cases h
    | none =>
      rw [hl] at h
      rw [tryDeep, hmatch] at h
      have hdeeprest : tryDeep pid obj rest = none := Option.map_eq_none'.mp h
      obtain ⟨hcne, hlrest⟩ := tryLevel_none_destruct pid obj c s ch rest hl
      have hchnone : findPlaceInsert pid obj ch = none := by
        simp only [findPlaceInsert]
        cases hlch : tryLevel pid obj ch with
        | some r3 => rw [hlch] at hmatch; cases hmatch
        | none => rw [hlch] at hmatch; exact hmatch
      have hrestnone : findPlaceInsert pid obj rest = none := by
        simp only [findPlaceInsert, hlrest]
        exact hdeeprest
      have hch := ih1 hchnone
      have hrest := ih2 hrestnone
      simp only [allIds, List.mem_cons, List.mem_append]
      rintro (h1 | h2 | h3)
      · exact hcne h1.symm
      · exact hch h2
      · exact hrest h3

/-- `allIds` distributes over list append. -/
theorem allIds_append (l1 l2 : List CTree) :
    allIds (l1 ++ l2) = allIds l1 ++ allIds l2 := by
  induction l1 with
  | nil => simp [allIds]
  | cons a rest ih =>
    cases a with
    | node c s ch => simp [allIds, ih]

/-- Feeding a precedence-respecting comment list into the builder
succeeds, and the flattening of the result is exactly the input's
(parent id, record) pairs on top of the starting tree's. -/
theorem buildTree_sound (cs : List CommentRec) :
    ∀ (t : List CTree) (seen : List Nat),
      precedenceOKFrom seen cs = true →
      (∀ x ∈ seen, x ∈ allIds t) →
      ∃ t2, buildTree t cs = .ok t2 ∧
        (↑(flattenList 0 t2) : Multiset (Nat × CommentRec))
          = ↑(cs.map fun c => (c.comment_parent_id, c)) + ↑(flattenList 0 t) := by
  induction cs with
  | nil =>
    intro t seen _ _
    exact ⟨t, rfl, by simp⟩
  | cons c rest ih =>
    intro t seen hpre hseen
    simp only [precedenceOKFrom, Bool.and_eq_true] at hpre
    obtain ⟨hhead, hrest⟩ := hpre
    by_cases hpid : c.comment_parent_id = 0
    · have hadd : CommentsTree.add_comment t c = .ok (t ++ [CTree.node c false []]) := by
        simp [CommentsTree.add_comment, hpid]
      have hseen2 : ∀ x ∈ c.comment_id :: seen, x ∈ allIds (t ++ [CTree.node c false []]) := by
        intro x hx
        rw [allIds_append]
        rcases List.mem_cons.mp hx with h1 | h1
        · subst h1
          simp [allIds]
        · exact List.mem_append_left _ (hseen x h1)
      obtain ⟨t2, hb, hfl⟩ := ih (t ++ [CTree.node c false []]) (c.comment_id :: seen) hrest hseen2
      refine ⟨t2, ?_, ?_⟩
      · simp only [buildTree, hadd]
        exact hb
      · rw [hfl, flattenList_append]
        simp only [flattenList, List.map_cons, List.append_nil, List.nil_append, hpid]
        simp only [← Multiset.cons_coe, ← Multiset.coe_add, ← Multiset.singleton_add]
        abel
    · have hmem : c.comment_parent_id ∈ seen := by
        have : (c.comment_parent_id == 0) = false := by
          simp [hpid]
        rw [this, Bool.false_or] at hhead
        exact List.mem_of_elem_eq_true hhead
      have hmemall : c.comment_parent_id ∈ allIds t := hseen _ hmem
      cases hf : findPlaceInsert c.comment_parent_id (CTree.node c false []) t with
      | none => exact absurd hmemall (findPlaceInsert_none_not_mem _ _ t hf)
      | some t1 =>
        have hadd : CommentsTree.add_comment t c = .ok t1 := by
          simp [CommentsTree.add_comment, hpid, hf]
        have hfl1 : (↑(flattenList 0 t1) : Multiset (Nat × CommentRec))
            = (c.comment_parent_id, c) ::ₘ ↑(flattenList 0 t) :=
          findPlaceInsert_flatten _ c t 0 t1 hf
        have hids1 : (↑(allIds t1) : Multiset Nat) = c.comment_id ::ₘ ↑(allIds t) := by
          rw [← allIds_eq_flatten_ids t1 0, ← allIds_eq_flatten_ids t 0]
          rw [← Multiset.map_coe, ← Multiset.map_coe, hfl1, Multiset.map_cons]
        have hseen2 : ∀ x ∈ c.comment_id :: seen, x ∈ allIds t1 := by
          intro x hx
          have hx2 : x ∈ (↑(allIds t1) : Multiset Nat) := by
            rw [hids1]
            rcases List.mem_cons.mp hx with h1 | h1
            · subst h1
              exact Multiset.mem_cons_self _ _
            · exact Multiset.mem_cons_of_mem (by exact_mod_cast hseen x h1)
          exact_mod_cast hx2
        obtain ⟨t2, hb, hfl⟩ := ih t1 (c.comment_id :: seen) hrest hseen2
        refine ⟨t2, ?_, ?_⟩
        · simp only [buildTree, hadd]
          exact hb
        · rw [hfl, hfl1]
          simp only [List.map_cons]
          simp only [← Multiset.cons_coe, ← Multiset.coe_add, ← Multiset.singleton_add]
          abel

/-- C3 counterexample: the input list [id 2 with parent 1, id 1 root]
satisfies the claim's closure hypothesis (every non-zero parent id occurs
in the list), yet presenting it in this order makes the builder raise the
fatal `RuntimeError` instead of producing the tree: the build is not
order-independent — it requires each parent to be inserted earlier. -/
theorem buildTree_order_dependent :
    (∀ c ∈ [({ comment_id := 2, comment_parent_id := 1, state := "A" } : CommentRec),
            { comment_id := 1, comment_parent_id := 0, state := "A" }],
      c.comment_parent_id = 0 ∨
        c.comment_parent_id ∈
          ([({ comment_id := 2, comment_parent_id := 1, state := "A" } : CommentRec),
            { comment_id := 1, comment_parent_id := 0, state := "A" }].map
            fun r => r.comment_id)) ∧
    buildTree [] [{ comment_id := 2, comment_parent_id := 1, state := "A" },
                  { comment_id := 1, comment_parent_id := 0, state := "A" }]
      = .error "Top-level search should not fail" := by
  constructor
  · decide
  · simp [buildTree, CommentsTree.add_comment, findPlaceInsert, tryLevel, tryDeep]

/-- C3 (amended): for every comment list in which every non-zero parent
id references a comment appearing earlier in the list, the builder
succeeds; the resulting forest, flattened to (enclosing node id, record)
pairs, is a permutation of the input's (declared parent id, record)
pairs — so every node hangs under the node named by its own parent id
(ancestor chains terminate at the root level by construction of the
finite tree), the multiset of node ids equals the multiset of input ids,
and any two precedence-respecting presentation orders of the same
comments yield the same structure up to sibling order.  An order that
violates the precedence condition instead raises the fatal error. -/
theorem comments_tree_build_characterization (cs : List CommentRec)
    (hpre : precedenceOK cs = true) :
    ((buildTree [] cs).isOk = true) ∧
    (∀ t, buildTree [] cs = .ok t →
      (flattenList 0 t).Perm (cs.map fun c => (c.comment_parent_id, c)) ∧
      (treeIds t).Perm (cs.map fun c => c.comment_id)) ∧
    (∀ (cs2 : List CommentRec) (t t2 : List CTree), cs2.Perm cs → precedenceOK cs2 = true →
      buildTree [] cs = .ok t → buildTree [] cs2 = .ok t2 →
      (flattenList 0 t2).Perm (flattenList 0 t)) := by
  obtain ⟨t0, hb0, hfl0⟩ := buildTree_sound cs [] [] hpre (by intro x hx; cases hx)
  have hfl0p : (flattenList 0 t0).Perm (cs.map fun c => (c.comment_parent_id, c)) := by
    rw [← Multiset.coe_eq_coe, hfl0]
    simp [flattenList]
  refine ⟨by rw [hb0]; rfl, ?_, ?_⟩
  · intro t ht
    rw [hb0] at ht
    cases ht
    refine ⟨hfl0p, ?_⟩
    have h1 : (treeIds t0).Perm
        ((cs.map fun c => (c.comment_parent_id, c)).map fun p => p.2.comment_id) :=
      hfl0p.map _
    simpa [List.map_map, Function.comp] using h1
  · intro cs2 t t2 hperm hpre2 ht ht2
    rw [hb0] at ht
    cases ht
    obtain ⟨t2b, hb2, hfl2⟩ := buildTree_sound cs2 [] [] hpre2 (by intro x hx; cases hx)
    rw [hb2] at ht2
    cases ht2
    have hfl2p : (flattenList 0 t2).Perm (cs2.map fun c => (c.comment_parent_id, c)) := by
      rw [← Multiset.coe_eq_coe, hfl2]
      simp [flattenList]
    exact hfl2p.trans ((hperm.map _).trans hfl0p.symm)

/-- C3 witness: a root comment followed by its reply builds the expected
one-branch tree whose flattening matches the declared parent pairs. -/
theorem comments_tree_build_characterization_witness :
    (flattenList 0 [CTree.node { comment_id := 1, comment_parent_id := 0, state := "A" } false
        [CTree.node { comment_id := 2, comment_parent_id := 1, state := "D" } false []]]).Perm
      ([({ comment_id := 1, comment_parent_id := 0, state := "A" } : CommentRec),
        { comment_id := 2, comment_parent_id := 1, state := "D" }].map
        fun c => (c.comment_parent_id, c)) :=
  ((comments_tree_build_characterization
      [{ comment_id := 1, comment_parent_id := 0, state := "A" },
       { comment_id := 2, comment_parent_id := 1, state := "D" }] (by decide)).2.1
    [CTree.node { comment_id := 1, comment_parent_id := 0, state := "A" } false
      [CTree.node { comment_id := 2, comment_parent_id := 1, state := "D" } false []]] rfl).1

/-! ## Claim C4: convergence termination -/

/-- The remaining-items view of the modelled remote preserves the time
ordering. -/
theorem remaining_pairwise (L : List SyncItem) (c : Option Nat)
    (h : List.Pairwise (fun a b => a.time < b.time) L) :
    List.Pairwise (fun a b => a.time < b.time) (remainingItems L c) := by
  cases c with
  | none => exact h
  | some t => exact List.Pairwise.sublist (List.filter_sublist L) h

/-- In a time-sorted item list, every element's time is bounded by the
time of the last element. -/
theorem pairwise_time_le_getLast (l : List SyncItem)
    (hp : List.Pairwise (fun a b => a.time < b.time) l)
    (p : SyncItem) (h : l.getLast? = some p) : ∀ e ∈ l, e.time ≤ p.time := by
  induction l with
  | nil => cases h
  | cons x rest ih =>
    cases rest with
    | nil =>
      intro e he
      rcases List.mem_singleton.mp he with rfl
      simp only [List.getLast?_singleton, Option.some.injEq] at h
      rw [h]
    | cons y rest2 =>
      rw [List.getLast?_cons_cons] at h
      have hpair := List.pairwise_cons.mp hp
      have htail := ih hpair.2 h
      intro e he
      rcases List.mem_cons.mp he with rfl | he2
      · exact le_of_lt (hpair.1 p (List.mem_of_mem_getLast? h))
      · exact htail e he2

/-- Accounting for one productive page: the journal items of the page all
lie no later than the page's last journal item, so they leave the
remaining set when the cursor advances to that time; the remaining set
shrinks by at least the number of journal items taken, and strictly. -/
theorem page_accounting (L : List SyncItem) (K : Nat) (c : Option Nat)
    (hsorted : List.Pairwise (fun a b => a.time < b.time) L)
    (pj : SyncItem)
    (hlast : (((remainingItems L c).take K).filter isJournalItem).getLast? = some pj) :
    (((remainingItems L c).take K).filter isJournalItem).length
        + (remainingItems L (some pj.time)).length ≤ (remainingItems L c).length ∧
    (remainingItems L (some pj.time)).length < (remainingItems L c).length := by
  have hRp := remaining_pairwise L c hsorted
  have hsub : (((remainingItems L c).take K).filter isJournalItem).Sublist
      (remainingItems L c) :=
    (List.filter_sublist _).trans (List.take_sublist K _)
  have hjp : List.Pairwise (fun a b => a.time < b.time)
      (((remainingItems L c).take K).filter isJournalItem) :=
    List.Pairwise.sublist hsub hRp
  have hle : ∀ e ∈ ((remainingItems L c).take K).filter isJournalItem, e.time ≤ pj.time :=
    pairwise_time_le_getLast _ hjp pj hlast
  have hpjR : pj ∈ remainingItems L c :=
    hsub.subset (List.mem_of_mem_getLast? hlast)
  have hRfilter : (remainingItems L c).filter (fun e => decide (pj.time < e.time))
      = remainingItems L (some pj.time) := by
    cases c with
    | none => rfl
    | some ct =>
      have hct : ct < pj.time := of_decide_eq_true (List.mem_filter.mp hpjR).2
      simp only [remainingItems, List.filter_filter]
      refine List.filter_congr fun x hx => ?_
      by_cases hxt : pj.time < x.time
      · simp [hxt, lt_trans hct hxt]
      · simp [hxt]
  have hpart := List.length_eq_length_filter_add
    (l := remainingItems L c) (fun e => decide (e.time ≤ pj.time))
  have hnotfilter : (remainingItems L c).filter (fun e => !(decide (e.time ≤ pj.time)))
      = (remainingItems L c).filter (fun e => decide (pj.time < e.time)) := by
    refine List.filter_congr fun x hx => ?_
    by_cases hxt : x.time ≤ pj.time
    · simp [hxt, Nat.not_lt.mpr hxt]
    · simp [hxt, Nat.lt_of_not_le hxt]
  have hjle : (((remainingItems L c).take K).filter isJournalItem).length
      ≤ ((remainingItems L c).filter (fun e => decide (e.time ≤ pj.time))).length := by
    have hself : (((remainingItems L c).take K).filter isJournalItem).filter
        (fun e => decide (e.time ≤ pj.time))
        = ((remainingItems L c).take K).filter isJournalItem :=
      List.filter_eq_self.mpr fun a ha => decide_eq_true (hle a ha)
    calc (((remainingItems L c).take K).filter isJournalItem).length
        = ((((remainingItems L c).take K).filter isJournalItem).filter
            (fun e => decide (e.time ≤ pj.time))).length := by rw [hself]
      _ ≤ _ := (List.Sublist.filter _ hsub).length_le
  have hstrict : (remainingItems L (some pj.time)).length < (remainingItems L c).length := by
    rw [← hRfilter]
    exact List.length_filter_lt_length_iff_exists.mpr ⟨pj, hpjR, by simp⟩
  refine ⟨?_, hstrict⟩
  rw [← hRfilter]
  rw [hpart, hnotfilter]
  omega

/-- Fueled progress of the `list_entries` loop over the modelled remote:
whenever every page either concludes the session (`count == total`) or
contains a journal item, the loop terminates within `|remaining| + 2`
iterations and accumulates at most `|remaining|` further pairs. -/
theorem list_entries_progress (L : List SyncItem) (K : Nat)
    (hsorted : List.Pairwise (fun a b => a.time < b.time) L)
    (hpage : ∀ c, (syncitemsModel L K c).count = (syncitemsModel L K c).total ∨
      ∃ e ∈ (syncitemsModel L K c).syncitems, isJournalItem e = true) :
    ∀ (n : Nat) (st : ListState),
      (remainingItems L st.last_sync).length ≤ n →
      ∃ res, FeedBackup.list_entries (syncitemsModel L K) (n + 2) st = some res ∧
        res.length ≤ st.items.length + (remainingItems L st.last_sync).length := by
  intro n
  induction n with
  | zero =>
    intro st hrem
    by_cases hg : st.total = some st.count
    · exact ⟨st.items, by simp [FeedBackup.list_entries, hg], Nat.le_add_right _ _⟩
    · rw [show (0 : Nat) + 2 = 1 + 1 from rfl, FeedBackup.list_entries, if_neg hg]
      cases hj : (((remainingItems L st.last_sync).take K).filter isJournalItem).getLast? with
      | some pj =>
        have hacc := page_accounting L K st.last_sync hsorted pj hj
        exact (by omega : False).elim
      | none =>
        have hjnil : ((remainingItems L st.last_sync).take K).filter isJournalItem = [] := by
          cases hcase : ((remainingItems L st.last_sync).take K).filter isJournalItem with
          | nil => rfl
          | cons a l =>
            rw [hcase] at hj
            rcases List.getLast?_eq_none_iff.mp hj with h
            cases h
        have hct : (syncitemsModel L K st.last_sync).count
            = (syncitemsModel L K st.last_sync).total := by
          rcases hpage st.last_sync with h | ⟨e, he, hej⟩
          · exact h
          · have hmem : e ∈ List.filter isJournalItem ((remainingItems L st.last_sync).take K) :=
              List.mem_filter.mpr ⟨he, hej⟩
            rw [hjnil] at hmem
            cases hmem
        have hjs : journalPairs (syncitemsModel L K st.last_sync) = [] := by
          show (((remainingItems L st.last_sync).take K).filter isJournalItem).map
            (fun e => (e.item_id, e.time)) = []
          rw [hjnil]
          rfl
        have hstep : FeedBackup.listStep st (syncitemsModel L K st.last_sync)
            = { items := st.items, last_sync := st.last_sync,
                count := (syncitemsModel L K st.last_sync).count,
                total := some (syncitemsModel L K st.last_sync).total } := by
          simp [FeedBackup.listStep, hjs]
        rw [hstep]
        refine ⟨st.items, ?_, Nat.le_add_right _ _⟩
        simp [FeedBackup.list_entries, hct]
  | succ m ih =>
    intro st hrem
    by_cases hg : st.total = some st.count
    · exact ⟨st.items, by simp [FeedBackup.list_entries, hg], Nat.le_add_right _ _⟩
    · rw [show m + 1 + 2 = (m + 2) + 1 from rfl, FeedBackup.list_entries, if_neg hg]
      cases hj : (((remainingItems L st.last_sync).take K).filter isJournalItem).getLast? with
      | none =>
        have hjnil : ((remainingItems L st.last_sync).take K).filter isJournalItem = [] := by
          cases hcase : ((remainingItems L st.last_sync).take K).filter isJournalItem with
          | nil => rfl
          | cons a l =>
            rw [hcase] at hj
            rcases List.getLast?_eq_none_iff.mp hj with h
            cases h
        have hct : (syncitemsModel L K st.last_sync).count
            = (syncitemsModel L K st.last_sync).total := by
          rcases hpage st.last_sync with h | ⟨e, he, hej⟩
          · exact h
          · have hmem : e ∈ List.filter isJournalItem ((remainingItems L st.last_sync).take K) :=
              List.mem_filter.mpr ⟨he, hej⟩
            rw [hjnil] at hmem
            cases hmem
        have hjs : journalPairs (syncitemsModel L K st.last_sync) = [] := by
          show (((remainingItems L st.last_sync).take K).filter isJournalItem).map
            (fun e => (e.item_id, e.time)) = []
          rw [hjnil]
          rfl
        have hstep : FeedBackup.listStep st (syncitemsModel L K st.last_sync)
            = { items := st.items, last_sync := st.last_sync,
                count := (syncitemsModel L K st.last_sync).count,
                total := some (syncitemsModel L K st.last_sync).total } := by
          simp [FeedBackup.listStep, hjs]
        rw [hstep]
        refine ⟨st.items, ?_, Nat.le_add_right _ _⟩
        rw [show m + 2 = (m + 1) + 1 from rfl, FeedBackup.list_entries]
        simp [hct]
      | some pj =>
        obtain ⟨hacc, hstrict⟩ := page_accounting L K st.last_sync hsorted pj hj
        have hjs : (journalPairs (syncitemsModel L K st.last_sync)).getLast?
            = some (pj.item_id, pj.time) := by
          simp only [journalPairs, syncitemsModel, List.getLast?_map, hj, Option.map_some']
        have hstep : FeedBackup.listStep st (syncitemsModel L K st.last_sync)
            = { items := st.items ++ journalPairs (syncitemsModel L K st.last_sync),
                last_sync := some pj.time,
                count := (syncitemsModel L K st.last_sync).count,
                total := some (syncitemsModel L K st.last_sync).total } := by
          simp [FeedBackup.listStep, hjs]
        rw [hstep]
        obtain ⟨res, hres, hlen⟩ := ih
          { items := st.items ++ journalPairs (syncitemsModel L K st.last_sync),
            last_sync := some pj.time,
            count := (syncitemsModel L K st.last_sync).count,
            total := some (syncitemsModel L K st.last_sync).total }
          (by
            show (remainingItems L (some pj.time)).length ≤ m
            omega)
        refine ⟨res, hres, ?_⟩
        have hjlen : (journalPairs (syncitemsModel L K st.last_sync)).length
            = (((remainingItems L st.last_sync).take K).filter isJournalItem).length := by
          simp [journalPairs, syncitemsModel]
        simp only [List.length_append] at hlen
        simp only [hjlen] at hlen
        omega

/-- The comment-metadata watermark fold never decreases the watermark. -/
theorem foldl_max_ge (l : List (Nat × String)) :
    ∀ acc : Nat, acc ≤ l.foldl (fun h p => max p.1 h) acc := by
  induction l with
  | nil => intro acc; exact le_refl _
  | cons p rest ih =>
    intro acc
    exact le_trans (le_max_right p.1 acc) (ih (max p.1 acc))

/-- The watermark fold dominates every processed comment id. -/
theorem foldl_elem_le (l : List (Nat × String)) :
    ∀ (acc : Nat) (q : Nat × String), q ∈ l → q.1 ≤ l.foldl (fun h p => max p.1 h) acc := by
  induction l with
  | nil => intro acc q hq; cases hq
  | cons p rest ih =>
    intro acc q hq
    rcases List.mem_cons.mp hq with rfl | hmem
    · exact le_trans (le_max_left q.1 acc) (foldl_max_ge rest _)
    · exact ih _ q hmem

/-- The watermark fold lands either on its start value or on some
processed comment id. -/
theorem foldl_max_mem (l : List (Nat × String)) :
    ∀ acc : Nat, l.foldl (fun h p => max p.1 h) acc = acc ∨
      ∃ p ∈ l, l.foldl (fun h p => max p.1 h) acc = p.1 := by
  induction l with
  | nil => intro acc; exact Or.inl rfl
  | cons q rest ih =>
    intro acc
    rcases ih (max q.1 acc) with h | ⟨p, hp, h⟩
    · rcases max_choice q.1 acc with hm | hm
      · exact Or.inr ⟨q, List.mem_cons_self _ _, by rw [List.foldl_cons, h, hm]⟩
      · exact Or.inl (by rw [List.foldl_cons, h, hm])
    · exact Or.inr ⟨p, List.mem_cons_of_mem _ hp, by rw [List.foldl_cons, h]⟩

/-- The server-reported `maxid` is bounded by any bound on all ids. -/
theorem maxCommentId_le (M : List (Nat × String)) (h : Nat)
    (hall : ∀ p ∈ M, p.1 ≤ h) : maxCommentId M ≤ h := by
  have aux : ∀ (l : List (Nat × String)) (acc : Nat), acc ≤ h → (∀ p ∈ l, p.1 ≤ h) →
      l.foldl (fun m p => max m p.1) acc ≤ h := by
    intro l
    induction l with
    | nil => intro acc hacc _; exact hacc
    | cons q rest ih =>
      intro acc hacc hl
      exact ih _ (max_le hacc (hl q (List.mem_cons_self _ _)))
        (fun p hp => hl p (List.mem_cons_of_mem _ hp))
  exact aux M 0 (Nat.zero_le h) hall

/-- Fueled progress of the `get_meta_since` loop over the modelled remote:
for every finite comment set the loop terminates within `|M| + 2`
iterations, at a state where the watermark has reached the reported
`maxid`. -/
theorem get_meta_progress (M : List (Nat × String)) (K : Nat) (umaps : List (Nat × String))
    (hK : 0 < K) :
    ∀ (n h mx : Nat) (cms ums : List (Nat × String)),
      (M.filter (fun p => h < p.1)).length ≤ n →
      ∃ res, FeedBackup.get_meta_since (fetchMetaModel M K umaps) (n + 2)
          { highest := h, maxid := mx, comments := cms, usermaps := ums } = some res ∧
        res.maxid ≤ res.highest := by
  intro n
  induction n with
  | zero =>
    intro h mx cms ums hn
    by_cases hg : h < mx
    · have hfil : M.filter (fun p => h < p.1) = [] :=
        List.length_eq_zero.mp (Nat.le_zero.mp hn)
      have hall : ∀ p ∈ M, p.1 ≤ h := by
        intro p hp
        have := List.filter_eq_nil_iff.mp hfil p hp
        simpa using this
      have hmx : maxCommentId M ≤ h := maxCommentId_le M h hall
      rw [show (0 : Nat) + 2 = 1 + 1 from rfl, FeedBackup.get_meta_since, if_pos hg]
      have hstep : FeedBackup.metaStep (fetchMetaModel M K umaps)
          { highest := h, maxid := mx, comments := cms, usermaps := ums }
          = { highest := h, maxid := maxCommentId M, comments := cms, usermaps := umaps ++ ums } := by
        simp [FeedBackup.metaStep, fetchMetaModel, hfil]
      rw [hstep, show (1 : Nat) = 0 + 1 from rfl, FeedBackup.get_meta_since,
        if_neg (Nat.not_lt.mpr hmx)]
      exact ⟨_, rfl, hmx⟩
    · rw [show (0 : Nat) + 2 = 1 + 1 from rfl, FeedBackup.get_meta_since, if_neg hg]
      exact ⟨_, rfl, Nat.not_lt.mp hg⟩
  | succ m ih =>
    intro h mx cms ums hn
    by_cases hg : h < mx
    · cases hfil : M.filter (fun p => h < p.1) with
      | nil =>
        have hall : ∀ p ∈ M, p.1 ≤ h := by
          intro p hp
          have := List.filter_eq_nil_iff.mp hfil p hp
          simpa using this
        have hmx : maxCommentId M ≤ h := maxCommentId_le M h hall
        rw [show m + 1 + 2 = (m + 2) + 1 from rfl, FeedBackup.get_meta_since, if_pos hg]
        have hstep : FeedBackup.metaStep (fetchMetaModel M K umaps)
            { highest := h, maxid := mx, comments := cms, usermaps := ums }
            = { highest := h, maxid := maxCommentId M, comments := cms,
                usermaps := umaps ++ ums } := by
          simp [FeedBackup.metaStep, fetchMetaModel, hfil]
        rw [hstep, show m + 2 = (m + 1) + 1 from rfl, FeedBackup.get_meta_since,
          if_neg (Nat.not_lt.mpr hmx)]
        exact ⟨_, rfl, hmx⟩
      | cons q tail =>
        obtain ⟨k, rfl⟩ : ∃ k, K = k + 1 := ⟨K - 1, by omega⟩
        have hql : q ∈ (M.filter (fun p => h < p.1)).take (k + 1) := by
          rw [hfil, List.take_succ_cons]
          exact List.mem_cons_self _ _
        have hqfil : q ∈ M.filter (fun p => h < p.1) := by
          rw [hfil]
          exact List.mem_cons_self _ _
        have hqh : h < q.1 := of_decide_eq_true (List.mem_filter.mp hqfil).2
        have hlt : h < ((M.filter (fun p => h < p.1)).take (k + 1)).foldl
            (fun hh p => max p.1 hh) h :=
          lt_of_lt_of_le hqh (foldl_elem_le _ h q hql)
        rcases foldl_max_mem ((M.filter (fun p => h < p.1)).take (k + 1)) h with heq | ⟨p, hp, hph⟩
        · rw [heq] at hlt
          exact absurd hlt (lt_irrefl h)
        · have hpfil : p ∈ M.filter (fun x => h < x.1) :=
            (List.take_sublist _ _).subset hp
          have hdec : (M.filter (fun x =>
              ((M.filter (fun p => h < p.1)).take (k + 1)).foldl (fun hh p => max p.1 hh) h
                < x.1)).length
              < (M.filter (fun x => h < x.1)).length := by
            have hcomb : M.filter (fun x =>
                decide (((M.filter (fun p => h < p.1)).take (k + 1)).foldl
                  (fun hh p => max p.1 hh) h < x.1))
                = (M.filter (fun x => decide (h < x.1))).filter (fun x =>
                  decide (((M.filter (fun p => h < p.1)).take (k + 1)).foldl
                    (fun hh p => max p.1 hh) h < x.1)) := by
              rw [List.filter_filter]
              refine (List.filter_congr fun x hx => ?_).symm
              by_cases hxt : ((M.filter (fun p => h < p.1)).take (k + 1)).foldl
                  (fun hh p => max p.1 hh) h < x.1
              · simp [hxt, lt_trans hlt hxt]
              · simp [hxt]
            rw [hcomb]
            refine List.length_filter_lt_length_iff_exists.mpr ⟨p, hpfil, ?_⟩
            simp [← hph]
          obtain ⟨res, hres, hmaxle⟩ := ih
            (((M.filter (fun p => h < p.1)).take (k + 1)).foldl (fun hh p => max p.1 hh) h)
            (maxCommentId M)
            ((M.filter (fun p => h < p.1)).take (k + 1) ++ cms) (umaps ++ ums)
            (by omega)
          refine ⟨res, ?_, hmaxle⟩
          rw [show m + 1 + 2 = (m + 2) + 1 from rfl, FeedBackup.get_meta_since, if_pos hg]
          have hstep : FeedBackup.metaStep (fetchMetaModel M (k + 1) umaps)
              { highest := h, maxid := mx, comments := cms, usermaps := ums }
              = { highest := ((M.filter (fun p => h < p.1)).take (k + 1)).foldl
                    (fun hh p => max p.1 hh) h,
                  maxid := maxCommentId M,
                  comments := (M.filter (fun p => h < p.1)).take (k + 1) ++ cms,
                  usermaps := umaps ++ ums } := rfl
          rw [hstep]
          exact hres
    · rw [show m + 1 + 2 = (m + 2) + 1 from rfl, FeedBackup.get_meta_since, if_neg hg]
      exact ⟨_, rfl, Nat.not_lt.mp hg⟩

/-- C4 counterexample: a concrete finite remote item set (a comment-type
item followed by an entry) over which the entry-listing pagination loop
never terminates: the first page holds only the non-journal item, the
cursor never advances, and every iteration repeats the same request with
`count = 1 ≠ 2 = total`.  No fuel makes the loop finish, refuting
termination "for every finite remote item set". -/
theorem list_entries_never_terminates :
    List.Pairwise (fun a b => a.time < b.time)
      ([{ kind := "C", item_id := 5, time := 1 },
        { kind := "L", item_id := 6, time := 2 }] : List SyncItem) ∧
    ¬ ∃ (n : Nat) (res : List (Nat × Nat)),
      FeedBackup.list_entries (syncitemsModel
        [{ kind := "C", item_id := 5, time := 1 }, { kind := "L", item_id := 6, time := 2 }] 1)
        n initListState = some res := by
  have haux : ∀ n : Nat,
      FeedBackup.list_entries (syncitemsModel
        [{ kind := "C", item_id := 5, time := 1 }, { kind := "L", item_id := 6, time := 2 }] 1)
        n { items := [], last_sync := none, count := 1, total := some 2 } = none := by
    intro n
    induction n with
    | zero => rfl
    | succ m ih =>
      rw [FeedBackup.list_entries, if_neg (by decide)]
      have hstep : FeedBackup.listStep
          { items := [], last_sync := none, count := 1, total := some 2 }
          (syncitemsModel
            [{ kind := "C", item_id := 5, time := 1 },
             { kind := "L", item_id := 6, time := 2 }] 1 none)
          = { items := [], last_sync := none, count := 1, total := some 2 } := by decide
      rw [hstep]
      exact ih
  refine ⟨by decide, ?_⟩
  rintro ⟨n, res, h⟩
  have hnone : FeedBackup.list_entries (syncitemsModel
      [{ kind := "C", item_id := 5, time := 1 }, { kind := "L", item_id := 6, time := 2 }] 1)
      n initListState = none := by
    cases n with
    | zero => rfl
    | succ m =>
      simp only [initListState, FeedBackup.list_entries]
      rw [if_neg (by decide)]
      have hstep : FeedBackup.listStep
          { items := [], last_sync := none, count := 0, total := none }
          (syncitemsModel
            [{ kind := "C", item_id := 5, time := 1 },
             { kind := "L", item_id := 6, time := 2 }] 1 none)
          = { items := [], last_sync := none, count := 1, total := some 2 } := by decide
      rw [hstep]
      exact haux m
  rw [hnone] at h
  cases h

/-- C4 (amended): over the spec's remote model built from a finite item
set, the entry-listing loop terminates within `|L| + 2` iterations with at
most `total` journal pairs accumulated, provided every page either
concludes the session (`count == total`) or contains at least one journal
item (without that proviso the loop can stall, see the counterexample);
and the comment-metadata loop stops as soon as `highest` has reached the
reported `maxid` (immediately when entered so, and within `|M| + 2`
iterations for every finite comment set). -/
theorem convergence_termination (L : List SyncItem) (M : List (Nat × String))
    (K : Nat) (umaps : List (Nat × String)) (h0 : Nat)
    (hK : 0 < K)
    (hsorted : List.Pairwise (fun a b => a.time < b.time) L)
    (hpage : ∀ c, (syncitemsModel L K c).count = (syncitemsModel L K c).total ∨
      ∃ e ∈ (syncitemsModel L K c).syncitems, isJournalItem e = true) :
    ((FeedBackup.list_entries (syncitemsModel L K) (L.length + 2) initListState).isSome
      = true) ∧
    (∀ res, FeedBackup.list_entries (syncitemsModel L K) (L.length + 2) initListState
        = some res → res.length ≤ (syncitemsModel L K none).total) ∧
    (∀ (srv : Nat → MetaResp) (fuel : Nat) (a : MetaAcc), a.maxid ≤ a.highest →
      FeedBackup.get_meta_since srv (fuel + 1) a = some a) ∧
    ((FeedBackup.get_meta_since (fetchMetaModel M K umaps) (M.length + 2)
        (initMetaAcc h0)).isSome = true) ∧
    (∀ res, FeedBackup.get_meta_since (fetchMetaModel M K umaps) (M.length + 2)
        (initMetaAcc h0) = some res → res.maxid ≤ res.highest) := by
  obtain ⟨res0, hres0, hlen0⟩ :=
    list_entries_progress L K hsorted hpage L.length initListState (le_refl _)
  obtain ⟨res1, hres1, hmax1⟩ :=
    get_meta_progress M K umaps hK M.length h0 (h0 + 1) [] []
      (List.length_filter_le _ _)
  have hinit : initMetaAcc h0
      = { highest := h0, maxid := h0 + 1, comments := [], usermaps := [] } := rfl
  refine ⟨by rw [hres0]; rfl, ?_, ?_, ?_, ?_⟩
  · intro res hres
    rw [hres0] at hres
    cases hres
    simpa [initListState, syncitemsModel, remainingItems] using hlen0
  · intro srv fuel a ha
    rw [FeedBackup.get_meta_since, if_neg (Nat.not_lt.mpr ha)]
  · rw [hinit, hres1]
    rfl
  · intro res hres
    rw [hinit, hres1] at hres
    cases hres
    exact hmax1

/-- C4 witness: a two-entry journal-only remote and a two-comment set —
both loops terminate within the stated fuel. -/
theorem convergence_termination_witness :
    ((FeedBackup.list_entries (syncitemsModel
        [{ kind := "L", item_id := 1, time := 1 }, { kind := "L", item_id := 2, time := 2 }] 5)
        4 initListState).isSome = true) ∧
    ((FeedBackup.get_meta_since (fetchMetaModel [(1, "x"), (2, "y")] 5 []) 4
        (initMetaAcc 0)).isSome = true) := by
  have h := convergence_termination
    [{ kind := "L", item_id := 1, time := 1 }, { kind := "L", item_id := 2, time := 2 }]
    [(1, "x"), (2, "y")] 5 [] 0 (by decide) (by decide)
    (by
      intro c
      left
      have hlen : (remainingItems
          [{ kind := "L", item_id := 1, time := 1 },
           { kind := "L", item_id := 2, time := 2 }] c).length ≤ 5 := by
        cases c with
        | none => decide
        | some t => exact le_trans (List.length_filter_le _ _) (by decide)
      simp [syncitemsModel, List.take_of_length_le hlen])
  exact ⟨h.1, h.2.2.2.1⟩
